import Mathlib

/-!
Verification of the Freycoin proof-of-work consensus core.

This file gives a shallow embedding, in Lean 4, of the consensus-critical
functions of `src/pow.cpp` and `src/pow/pow_utils.cpp` (difficulty
retargeting, difficulty-transition validation, target generation,
constellation checking, the prime table sieve, and the deterministic BPSW
primality oracle), together with theorems settling the specification
claims about them.

Conventions used throughout the embedding:
* C++ `int64_t` arithmetic is modelled by `ℤ`; C++ signed division and
  modulus (which truncate toward zero) are modelled by `Int.tdiv` and
  `Int.tmod`.
* GMP `mpz_class` values that are provably non-negative are modelled by
  `ℕ` (GMP `mpz_mod` with a positive modulus, and `%` on `ℕ`, agree).
* Machine-width casts are modelled by explicit `% 2^w` operations.
* A `uint256` is modelled as its little-endian byte list (`List ℕ`,
  32 entries, each meant to be `< 256`).
* External GMP routines that the repository treats as black boxes
  (`mpz_probab_prime_p`) are abstracted as function parameters.
-/

/-! ### Generic numeric helpers (bit length ∘ integer k-th root) -/

/-- Fuel-driven helper for `bitlen`; the fuel only needs to dominate the
number of halvings. -/
def bitlenAux : ℕ → ℕ → ℕ
  | 0, _ => 0
  | _ + 1, 0 => 0
  | fuel + 1, n + 1 => bitlenAux fuel ((n + 1) / 2) + 1

/-- Number of bits of a natural number (`arith_uint256::bits`, GMP
`mpz_sizeinbase(·, 2)` for positive arguments): `0` for `0`, otherwise
`⌊log2 n⌋ + 1`.  Defined by fuel so that the kernel can evaluate it. -/
def bitlen (n : ℕ) : ℕ := bitlenAux n n

theorem bitlenAux_zero (fuel : ℕ) : bitlenAux fuel 0 = 0 := by
  cases fuel <;> rfl

theorem bitlenAux_eq (fuel n : ℕ) (h : n ≤ fuel) (hn : 0 < n) :
    2 ^ (bitlenAux fuel n - 1) ≤ n ∧ n < 2 ^ bitlenAux fuel n ∧ 0 < bitlenAux fuel n := by
  induction fuel generalizing n with
  | zero => omega
  | succ fuel ih =>
    match n, hn with
    | n + 1, _ =>
      show 2 ^ (bitlenAux fuel ((n + 1) / 2) + 1 - 1) ≤ n + 1 ∧
        n + 1 < 2 ^ (bitlenAux fuel ((n + 1) / 2) + 1) ∧ 0 < bitlenAux fuel ((n + 1) / 2) + 1
      rcases Nat.eq_zero_or_pos ((n + 1) / 2) with h0 | hpos
      · have hn1 : n = 0 := by omega
        subst hn1
        simp [h0, bitlenAux_zero]
      · obtain ⟨h1, h2, h3⟩ := ih ((n + 1) / 2) (by omega) hpos
        have hB1 : bitlenAux fuel ((n + 1) / 2) - 1 + 1 = bitlenAux fuel ((n + 1) / 2) := by
          omega
        have e1 : 2 ^ bitlenAux fuel ((n + 1) / 2) =
            2 ^ (bitlenAux fuel ((n + 1) / 2) - 1) * 2 := by
          conv_lhs => rw [← hB1]
          rw [pow_succ]
        have e2 : 2 ^ (bitlenAux fuel ((n + 1) / 2) + 1) =
            2 ^ bitlenAux fuel ((n + 1) / 2) * 2 := by rw [pow_succ]
        refine ⟨?_, ?_, by omega⟩
        · rw [Nat.add_sub_cancel]
          omega
        · omega

theorem bitlen_spec (n : ℕ) (hn : 0 < n) :
    2 ^ (bitlen n - 1) ≤ n ∧ n < 2 ^ bitlen n :=
  ⟨(bitlenAux_eq n n le_rfl hn).1, (bitlenAux_eq n n le_rfl hn).2.1⟩

/-- Binary-search helper for the integer k-th root; the invariant is
`lo ^ k ≤ n < hi ^ k`. -/
def irootAux (k n : ℕ) : ℕ → ℕ → ℕ → ℕ
  | 0, lo, _ => lo
  | fuel + 1, lo, hi =>
    if hi ≤ lo + 1 then lo
    else if ((lo + hi) / 2) ^ k ≤ n then irootAux k n fuel ((lo + hi) / 2) hi
    else irootAux k n fuel lo ((lo + hi) / 2)

/-- Truncated integer k-th root (GMP `mpz_root` for non-negative input):
the largest `r` with `r ^ k ≤ n`, for `k ≥ 1`. -/
def iroot (k n : ℕ) : ℕ := irootAux k n (bitlen n + 2) 0 (n + 2)

theorem irootAux_spec (k n : ℕ) (hk : 0 < k) (fuel lo hi : ℕ)
    (hlo : lo ^ k ≤ n) (hhi : n < hi ^ k) (hfuel : hi - lo ≤ 2 ^ fuel) :
    (irootAux k n fuel lo hi) ^ k ≤ n ∧ n < (irootAux k n fuel lo hi + 1) ^ k := by
  induction fuel generalizing lo hi with
  | zero =>
    have hlt : lo < hi := by
      by_contra hcon
      push_neg at hcon
      have : hi ^ k ≤ lo ^ k := Nat.pow_le_pow_left hcon k
      omega
    have heq : hi = lo + 1 := by
      simp only [pow_zero] at hfuel
      omega
    subst heq
    exact ⟨hlo, hhi⟩
  | succ fuel ih =>
    have hlt : lo < hi := by
      by_contra hcon
      push_neg at hcon
      have : hi ^ k ≤ lo ^ k := Nat.pow_le_pow_left hcon k
      omega
    rw [irootAux]
    have hpow : 2 ^ (fuel + 1) = 2 ^ fuel * 2 := by rw [pow_succ]
    by_cases hadj : hi ≤ lo + 1
    · have heq : hi = lo + 1 := by omega
      subst heq
      rw [if_pos hadj]
      exact ⟨hlo, hhi⟩
    · rw [if_neg hadj]
      by_cases hmid : ((lo + hi) / 2) ^ k ≤ n
      · rw [if_pos hmid]
        exact ih ((lo + hi) / 2) hi hmid hhi (by omega)
      · rw [if_neg hmid]
        exact ih lo ((lo + hi) / 2) hlo (by omega) (by omega)

theorem iroot_spec (k n : ℕ) (hk : 0 < k) :
    (iroot k n) ^ k ≤ n ∧ n < (iroot k n + 1) ^ k := by
  refine irootAux_spec k n hk (bitlen n + 2) 0 (n + 2) (by rw [Nat.zero_pow hk]; exact Nat.zero_le n) ?_ ?_
  · calc n < n + 2 := by omega
    _ = (n + 2) ^ 1 := (pow_one _).symm
    _ ≤ (n + 2) ^ k := Nat.pow_le_pow_right (by omega) hk
  · rcases Nat.eq_zero_or_pos n with rfl | hn
    · simp [bitlen, bitlenAux]
    · have h1 := (bitlen_spec n hn).2
      have h2 : 2 ^ bitlen n * 4 = 2 ^ (bitlen n + 2) := by ring
      omega

/-- The k-th root of an exact k-th power. -/
theorem iroot_pow_self (k d : ℕ) (hk : 0 < k) : iroot k (d ^ k) = d := by
  obtain ⟨h1, h2⟩ := iroot_spec k (d ^ k) hk
  have hle : iroot k (d ^ k) ≤ d := by
    by_contra hcon
    push_neg at hcon
    have : d ^ k < (iroot k (d ^ k)) ^ k := Nat.pow_lt_pow_left hcon hk.ne'
    omega
  have hge : d ≤ iroot k (d ^ k) := by
    by_contra hcon
    push_neg at hcon
    have : (iroot k (d ^ k) + 1) ^ k ≤ d ^ k := Nat.pow_le_pow_left (by omega) k
    omega
  omega

/-- Truncating division by a positive integer is monotone in the numerator
(the analogue, for C-style `Int.tdiv`, of `Int.ediv_le_ediv`). -/
theorem tdiv_le_tdiv_of_le {a b d : ℤ} (hd : 0 < d) (h : a ≤ b) :
    a.tdiv d ≤ b.tdiv d := by
  rcases le_or_lt 0 a with ha | ha
  · rw [Int.tdiv_eq_ediv ha hd.le, Int.tdiv_eq_ediv (ha.trans h) hd.le]
    exact Int.ediv_le_ediv hd h
  · have hna : a.tdiv d = -((-a).tdiv d) := by
      rw [← Int.neg_tdiv, neg_neg]
    rcases le_or_lt 0 b with hb | hb
    · have h1 : (0 : ℤ) ≤ (-a).tdiv d := Int.tdiv_nonneg (by omega) hd.le
      have h2 : (0 : ℤ) ≤ b.tdiv d := Int.tdiv_nonneg hb hd.le
      omega
    · have hnb : b.tdiv d = -((-b).tdiv d) := by
        rw [← Int.neg_tdiv, neg_neg]
      have h1 : (-b).tdiv d ≤ (-a).tdiv d := by
        rw [Int.tdiv_eq_ediv (by omega) hd.le, Int.tdiv_eq_ediv (by omega) hd.le]
        exact Int.ediv_le_ediv hd (by omega)
      omega

/-! ### Consensus parameters (`Consensus::Params`, populated in
`src/chainparams.cpp`) -/

/-- The little-endian byte list of a 256-bit value, interpreted as a
natural number (GMP `mpz_import` with 8 little-endian 32-bit words, and
`uint256::GetUint64` restricted to a prefix, both reduce to this). -/
def leNat (bytes : List ℕ) : ℕ := bytes.foldr (fun b acc => b + 256 * acc) 0

/-- Consensus parameters consumed by the PoW core.  The field
`getPowAcceptedPatternsAtHeight` models the parameter provider's
pattern-lookup method, whose body lives outside the PoW core; the
concrete networks instantiate it (see `mainnetGetPatterns`). -/
structure ConsensusParams where
  fork1Height : ℤ
  fork2Height : ℤ
  powAcceptedPatterns1 : List (List ℤ)
  powAcceptedPatterns2 : List (List ℤ)
  powLimit : ℕ
  powLimit2 : ℕ
  nPowTargetTimespan : ℤ
  nPowTargetSpacing : ℤ
  fPowAllowMinDifficultyBlocks : Bool
  fPowNoRetargeting : Bool
  hashGenesisBlockForPoW : List ℕ
  getPowAcceptedPatternsAtHeight : ℤ → List (List ℤ)

/-- Modelled from the spec: the difficulty adjustment interval is the
number of blocks worth one target timespan, `nPowTargetTimespan /
nPowTargetSpacing` (the method body lives in `consensus/params.h`,
outside the PoW core; `src/chainparams.cpp` documents the mainnet value
as 288). -/
def ConsensusParams.DifficultyAdjustmentInterval (p : ConsensusParams) : ℤ :=
  p.nPowTargetTimespan.tdiv p.nPowTargetSpacing

/-- Modelled from the spec: the maximum allowed distance of a block time
into the future (the "max-future-block-time bound" of the spec, declared
outside the PoW core; the standard Bitcoin-derived value is two hours).
None of the theorems below depend on the concrete value. -/
def MAX_FUTURE_BLOCK_TIME : ℤ := 7200

/-- Modelled from the spec: the parameter provider returns the post-fork2
accepted pattern list from `fork2Height` on and the pre-fork2 list
before it (spec §3, "accepted pattern lists" pre and post fork2). -/
def mainnetGetPatterns (h : ℤ) : List (List ℤ) :=
  if 1482768 ≤ h then [[0, 2, 4, 2, 4, 6, 2], [0, 2, 6, 4, 2, 4, 2]]
  else [[0, 4, 2, 4, 2, 4]]

/-- Mainnet consensus parameters, from `src/chainparams.cpp` (`CMainParams`).
The genesis PoW hash is the little-endian byte list of
`26d0466d5a0eab0ebf171eacb98146b26143d143463514f26b28d3cded81c1bb`. -/
def mainnetParams : ConsensusParams :=
  ⟨157248, 1482768,
   [[0, 4, 2, 4, 2, 4]],
   [[0, 2, 4, 2, 4, 6, 2], [0, 2, 6, 4, 2, 4, 2]],
   33632256, 600 * 256, 12 * 3600, 150, false, false,
   [0xbb, 0xc1, 0x81, 0xed, 0xcd, 0xd3, 0x28, 0x6b,
    0xf2, 0x14, 0x35, 0x46, 0x43, 0xd1, 0x43, 0x61,
    0xb2, 0x46, 0x81, 0xb9, 0xac, 0x1e, 0x17, 0xbf,
    0x0e, 0xab, 0x0e, 0x5a, 0x6d, 0x46, 0xd0, 0x26],
   mainnetGetPatterns⟩

/-! ### The ASERT retarget (`asert`, `src/pow.cpp` lines 91-102) -/

/-- The post-fork2 ASERT difficulty adjustment.  `nBits` is the previous
compact difficulty (a `uint64_t` holding a `uint32_t` value),
`previousSolveTime` the previous solve time in seconds, `nextHeight` the
height of the block whose difficulty is being computed.  All divisions
are C++ `int64_t` divisions (truncation toward zero); the final
`static_cast<uint32_t>` is the `% 2^32` cast. -/
def asert (nBits : ℕ) (previousSolveTime : ℤ) (nextHeight : ℤ)
    (params : ConsensusParams) : ℕ :=
  let N : ℤ := 64
  let cp : ℤ := 10 * ((params.getPowAcceptedPatternsAtHeight nextHeight).headI.length : ℤ) + 23
  let pst : ℤ :=
    if previousSolveTime > 12 * params.nPowTargetSpacing then 12 * params.nPowTargetSpacing
    else previousSolveTime
  let difficulty : ℤ :=
    ((nBits : ℤ) *
      (65536 + Int.tdiv (10 * (65536 - Int.tdiv (65536 * pst) params.nPowTargetSpacing))
        (N * cp))).tdiv 65536
  let clamped : ℤ :=
    if difficulty < (params.powLimit2 : ℤ) then (params.powLimit2 : ℤ)
    else if difficulty > 4294967295 then 4294967295
    else difficulty
  (clamped % 4294967296).toNat

/-- C1: for every previous compact difficulty, previous solve time and
next height at or past `fork2Height` with a non-empty accepted pattern
list, `asert` returns exactly the spec's fixed-point formula — solve
time clamped to at most `12 · nPowTargetSpacing`, `N = 64`,
`cp = 10 · |pattern| + 23`, the quotient
`(nBits · (65536 + 10 · (65536 − 65536·Δt/spacing) / (N·cp))) / 65536`
taken in truncating integer arithmetic, and the result clamped into
`[powLimit2, 2^32 − 1]`. -/
theorem asert_eq_spec_formula (params : ConsensusParams) (nBits : ℕ) (t h : ℤ)
    (hpat : params.getPowAcceptedPatternsAtHeight h ≠ [])
    (hfork : params.fork2Height ≤ h)
    (hlim : params.powLimit2 ≤ 4294967295) :
    (asert nBits t h params : ℤ) =
      max (params.powLimit2 : ℤ)
        (min
          (((nBits : ℤ) *
            (65536 + Int.tdiv
              (10 * (65536 - Int.tdiv (65536 * min t (12 * params.nPowTargetSpacing))
                params.nPowTargetSpacing))
              (64 * (10 * ((params.getPowAcceptedPatternsAtHeight h).headI.length : ℤ) + 23)))).tdiv
            65536)
          4294967295) := by
  unfold asert
  have hmin : (if t > 12 * params.nPowTargetSpacing then 12 * params.nPowTargetSpacing else t) =
      min t (12 * params.nPowTargetSpacing) := by
    rcases le_or_lt t (12 * params.nPowTargetSpacing) with hle | hlt
    · rw [if_neg (by omega), min_eq_left hle]
    · rw [if_pos hlt, min_eq_right hlt.le]
  simp only [hmin]
  set d : ℤ :=
    ((nBits : ℤ) *
      (65536 + Int.tdiv
        (10 * (65536 - Int.tdiv (65536 * min t (12 * params.nPowTargetSpacing))
          params.nPowTargetSpacing))
        (64 * (10 * ((params.getPowAcceptedPatternsAtHeight h).headI.length : ℤ) + 23)))).tdiv
      65536 with hd
  have hL : (0 : ℤ) ≤ (params.powLimit2 : ℤ) := Int.ofNat_nonneg _
  have hU : (params.powLimit2 : ℤ) ≤ 4294967295 := by exact_mod_cast hlim
  rcases lt_or_le d (params.powLimit2 : ℤ) with hc1 | hc1
  · rw [if_pos hc1, max_eq_left ((min_le_left d 4294967295).trans hc1.le),
      Int.emod_eq_of_lt hL (by omega), Int.toNat_of_nonneg hL]
  · rw [if_neg (by omega)]
    rcases le_or_lt d 4294967295 with hc2 | hc2
    · rw [if_neg (by omega), Int.emod_eq_of_lt (by omega) (by omega),
        Int.toNat_of_nonneg (by omega), max_eq_right (le_min hc1 hU), min_eq_left hc2]
    · rw [if_pos hc2, min_eq_right hc2.le, max_eq_right hU]
      decide

/-- Concrete instantiation of `asert_eq_spec_formula` on mainnet
parameters just past the second fork. -/
theorem asert_eq_spec_formula_witness :
    (asert 165000 100 1482769 mainnetParams : ℤ) =
      max ((mainnetParams.powLimit2 : ℕ) : ℤ)
        (min
          (Int.tdiv
            (((165000 : ℕ) : ℤ) *
              (65536 + Int.tdiv
                (10 * (65536 - Int.tdiv
                  (65536 * min (100 : ℤ) (12 * mainnetParams.nPowTargetSpacing))
                  mainnetParams.nPowTargetSpacing))
                (64 * (10 * ((mainnetParams.getPowAcceptedPatternsAtHeight 1482769).headI.length : ℤ) + 23))))
            65536)
          4294967295) :=
  asert_eq_spec_formula mainnetParams 165000 100 1482769
    (by decide) (by decide) (by decide)

/-! ### Compact difficulty encoding (`arith_uint256::SetCompact` ∘
`GetCompact`, used by the pre-fork2 retarget code) -/

/-- The 256-bit value encoded by a compact difficulty (the value part of
`arith_uint256::SetCompact`): the top byte is a byte length, the low 23
bits a mantissa.  An oversized shift wraps modulo `2^256` as the 256-bit
type does. -/
def SetCompact (c : ℕ) : ℕ :=
  if c / 2 ^ 24 ≤ 3 then (c % 2 ^ 23) / 2 ^ (8 * (3 - c / 2 ^ 24))
  else ((c % 2 ^ 23) * 2 ^ (8 * (c / 2 ^ 24 - 3))) % 2 ^ 256

/-- The compact encoding of a 256-bit value (`arith_uint256::GetCompact`
with the negative flag clear): mantissa normalisation keeps bit 23
clear. -/
def GetCompact (v : ℕ) : ℕ :=
  if (bitlen v + 7) / 8 ≤ 3 then
    if ((v % 2 ^ 64) * 2 ^ (8 * (3 - (bitlen v + 7) / 8)) % 2 ^ 32) / 2 ^ 23 % 2 = 1 then
      ((v % 2 ^ 64) * 2 ^ (8 * (3 - (bitlen v + 7) / 8)) % 2 ^ 32) / 2 ^ 8 +
        ((bitlen v + 7) / 8 + 1) * 2 ^ 24
    else ((v % 2 ^ 64) * 2 ^ (8 * (3 - (bitlen v + 7) / 8)) % 2 ^ 32) + ((bitlen v + 7) / 8) * 2 ^ 24
  else
    if ((v / 2 ^ (8 * ((bitlen v + 7) / 8 - 3))) % 2 ^ 32) / 2 ^ 23 % 2 = 1 then
      ((v / 2 ^ (8 * ((bitlen v + 7) / 8 - 3))) % 2 ^ 32) / 2 ^ 8 +
        ((bitlen v + 7) / 8 + 1) * 2 ^ 24
    else ((v / 2 ^ (8 * ((bitlen v + 7) / 8 - 3))) % 2 ^ 32) + ((bitlen v + 7) / 8) * 2 ^ 24

theorem SetCompact_lt (c : ℕ) : SetCompact c < 2 ^ 256 := by
  unfold SetCompact
  split_ifs with h
  · calc (c % 2 ^ 23) / 2 ^ (8 * (3 - c / 2 ^ 24)) ≤ c % 2 ^ 23 := Nat.div_le_self _ _
    _ < 2 ^ 23 := Nat.mod_lt _ (by norm_num)
    _ < 2 ^ 256 := by norm_num
  · exact Nat.mod_lt _ (by positivity)

/-! ### Superblocks (`isInSuperblockInterval`, `isSuperblock`,
`src/pow.cpp` lines 15-21) -/

/-- Whether this height's difficulty adjustment interval contains a
superblock ("once per week"): C++ `int` division and modulus truncate
toward zero. -/
def isInSuperblockInterval (nHeight : ℤ) (params : ConsensusParams) : Bool :=
  (nHeight.tdiv params.DifficultyAdjustmentInterval).tmod 14 == 12

/-- Whether this height is the designated superblock of its interval. -/
def isSuperblock (nHeight : ℤ) (params : ConsensusParams) : Bool :=
  (nHeight.tmod params.DifficultyAdjustmentInterval == 144) &&
    isInSuperblockInterval nHeight params

/-! ### Retarget engine (`CalculateNextWorkRequired`, `src/pow.cpp`
lines 104-155) -/

/-- The fields of a `CBlockIndex` node that the retarget engine reads. -/
structure BlockIndexData where
  nHeight : ℤ
  nBits : ℕ
  nTime : ℤ

/-- The retarget computation (`CalculateNextWorkRequired`).  Post-fork2
it delegates to `asert`; pre-fork2 it clamps the actual timespan, raises
the decoded difficulty to the power `3 + |pattern|`, rescales by
`targetTimespan / actualTimespan` (with the C++ `uint32_t` casts made
explicit), applies superblock-interval compensation, takes the integer
root, floors at the minimum difficulty, and re-encodes (the
`mpz` → `arith_uint256` conversion wraps modulo `2^256`). -/
def CalculateNextWorkRequired (last : BlockIndexData) (nFirstBlockTime : ℤ)
    (params : ConsensusParams) : ℕ :=
  if params.fPowNoRetargeting then last.nBits
  else if params.fork2Height ≤ last.nHeight + 1 then
    asert last.nBits (last.nTime - nFirstBlockTime) (last.nHeight + 1) params
  else
    let a0 : ℤ := last.nTime - nFirstBlockTime
    let a1 : ℤ :=
      if last.nHeight + 1 ≠ params.DifficultyAdjustmentInterval then
        if a0 < params.nPowTargetTimespan.tdiv 4 then params.nPowTargetTimespan.tdiv 4
        else if a0 > params.nPowTargetTimespan * 4 then params.nPowTargetTimespan * 4
        else a0
      else a0
    let difficulty : ℕ := SetCompact last.nBits
    let k : ℕ := 3 + params.powAcceptedPatterns1.headI.length
    let lin0 : ℕ := difficulty ^ k * (params.nPowTargetTimespan % 4294967296).toNat
    let lin1 : ℕ := lin0 / (a1 % 4294967296).toNat
    let lin2 : ℕ :=
      if params.fork1Height ≤ last.nHeight + 1 ∧ last.nHeight + 1 < params.fork2Height then
        if isInSuperblockInterval (last.nHeight + 1) params then lin1 * 68 / 75
        else if isInSuperblockInterval last.nHeight params then lin1 * 75 / 68
        else lin1
      else lin1
    let newDifficulty : ℕ := iroot k lin2
    let newD2 : ℕ :=
      if newDifficulty < params.powLimit % 2 ^ 23 / 2 ^ 8 then params.powLimit % 2 ^ 23 / 2 ^ 8
      else newDifficulty
    GetCompact (newD2 % 2 ^ 256)

/-! ### Transition validator (`PermittedDifficultyTransition`,
`src/pow.cpp` lines 159-252) -/

/-- Whether a difficulty transition from `old_nbits` to `new_nbits` at
`height` is permitted.  Mirrors the C++ control flow: min-difficulty
networks are exempt; at `fork2Height` the exact `×171/256`-style
transition is demanded; past it the ASERT bounds are checked; before it
the pre-fork2 sanity bounds, superblock entry exit equalities and
linearised timespan bounds are checked. -/
def PermittedDifficultyTransition (params : ConsensusParams) (height : ℤ)
    (old_nbits new_nbits : ℕ) : Bool :=
  if params.fPowAllowMinDifficultyBlocks then true
  else if params.fork2Height ≤ height then
    if height = params.fork2Height then
      new_nbits ==
        (if (old_nbits % 2 ^ 23 / 2 ^ 8 * 171) % 4294967296 < params.powLimit2 then
          params.powLimit2
        else (old_nbits % 2 ^ 23 / 2 ^ 8 * 171) % 4294967296)
    else
      if new_nbits < asert old_nbits (12 * params.nPowTargetSpacing) height params then false
      else if new_nbits > asert old_nbits (-MAX_FUTURE_BLOCK_TIME) height params then false
      else true
  else
    if new_nbits > 34210816 then false
    else if new_nbits < 33632256 then false
    else
      let k : ℕ := 3 + params.powAcceptedPatterns1.headI.length
      let newLin : ℕ := SetCompact old_nbits ^ k
      if params.fork1Height ≤ height ∧ isSuperblock height params then
        GetCompact ((iroot k newLin * 95859 / 2 ^ 16) % 2 ^ 256) == new_nbits
      else if params.fork1Height ≤ height ∧ isSuperblock (height - 1) params then
        max ((iroot k newLin * 2 ^ 16 / 95859) % 2 ^ 256) (SetCompact new_nbits) -
          min ((iroot k newLin * 2 ^ 16 / 95859) % 2 ^ 256) (SetCompact new_nbits) ≤ 1
      else
        let smallest_timespan : ℤ :=
          if height = params.DifficultyAdjustmentInterval then params.nPowTargetTimespan.tdiv 12
          else params.nPowTargetTimespan.tdiv 4
        let largest_timespan : ℤ :=
          if height = params.DifficultyAdjustmentInterval then params.nPowTargetTimespan * 12
          else params.nPowTargetTimespan * 4
        let lin : ℕ := newLin * (params.nPowTargetTimespan % 4294967296).toNat
        let linMin0 : ℕ := lin / (largest_timespan % 4294967296).toNat
        let linMax0 : ℕ := lin / (smallest_timespan % 4294967296).toNat
        let linMin1 : ℕ :=
          if params.fork1Height ≤ height ∧ ¬ isInSuperblockInterval (height - 1) params ∧
              isInSuperblockInterval height params then linMin0 * 68 / 75
          else if params.fork1Height ≤ height ∧ isInSuperblockInterval height params ∧
              ¬ isInSuperblockInterval (height + 1) params then linMin0 * 75 / 68
          else linMin0
        let linMax1 : ℕ :=
          if params.fork1Height ≤ height ∧ ¬ isInSuperblockInterval (height - 1) params ∧
              isInSuperblockInterval height params then linMax0 * 68 / 75
          else if params.fork1Height ≤ height ∧ isInSuperblockInterval height params ∧
              ¬ isInSuperblockInterval (height + 1) params then linMax0 * 75 / 68
          else linMax0
        if height.tmod params.DifficultyAdjustmentInterval = 0 then
          let dMin : ℕ :=
            if iroot k linMin1 < params.powLimit % 2 ^ 23 / 2 ^ 8 then
              params.powLimit % 2 ^ 23 / 2 ^ 8
            else iroot k linMin1
          let dMax : ℕ :=
            if iroot k linMax1 < params.powLimit % 2 ^ 23 / 2 ^ 8 then
              params.powLimit % 2 ^ 23 / 2 ^ 8
            else iroot k linMax1
          if SetCompact new_nbits < dMin % 2 ^ 256 then false
          else if SetCompact new_nbits > dMax % 2 ^ 256 then false
          else true
        else old_nbits == new_nbits

/-! ### C2: ASERT outputs always satisfy the transition validator -/

/-- The inner ASERT quotient is antitone in the (already clamped) solve
time. -/
theorem asertCore_anti (s cp D : ℤ) (hs : 0 < s) (hcp : 0 < cp) (hD : 0 ≤ D)
    {p1 p2 : ℤ} (hp : p1 ≤ p2) :
    (D * (65536 + Int.tdiv (10 * (65536 - Int.tdiv (65536 * p2) s)) (64 * cp))).tdiv 65536 ≤
      (D * (65536 + Int.tdiv (10 * (65536 - Int.tdiv (65536 * p1) s)) (64 * cp))).tdiv 65536 := by
  apply tdiv_le_tdiv_of_le (by norm_num)
  apply mul_le_mul_of_nonneg_left _ hD
  have h1 : Int.tdiv (65536 * p1) s ≤ Int.tdiv (65536 * p2) s :=
    tdiv_le_tdiv_of_le hs (by omega)
  have h3 := tdiv_le_tdiv_of_le (show (0 : ℤ) < 64 * cp by positivity)
    (show 10 * (65536 - Int.tdiv (65536 * p2) s) ≤ 10 * (65536 - Int.tdiv (65536 * p1) s) by omega)
  omega

/-- `asert` is antitone in the solve time: a faster solve never lowers
the next difficulty below that of a slower solve. -/
theorem asert_le_asert (params : ConsensusParams) (nBits : ℕ) (h : ℤ)
    (hs : 0 < params.nPowTargetSpacing) (hlim : params.powLimit2 ≤ 4294967295)
    {t1 t2 : ℤ} (ht : t1 ≤ t2) :
    asert nBits t2 h params ≤ asert nBits t1 h params := by
  simp only [asert]
  have key : ∀ d1 d2 : ℤ, d2 ≤ d1 →
      ((if d2 < (params.powLimit2 : ℤ) then (params.powLimit2 : ℤ)
        else if d2 > 4294967295 then 4294967295 else d2) % 4294967296).toNat ≤
      ((if d1 < (params.powLimit2 : ℤ) then (params.powLimit2 : ℤ)
        else if d1 > 4294967295 then 4294967295 else d1) % 4294967296).toNat := by
    intro d1 d2 hd
    have hU : (params.powLimit2 : ℤ) ≤ 4294967295 := by exact_mod_cast hlim
    have hL : (0 : ℤ) ≤ (params.powLimit2 : ℤ) := Int.ofNat_nonneg _
    split_ifs <;> omega
  apply key
  apply asertCore_anti _ _ _ hs (by positivity) (Int.ofNat_nonneg _)
  split_ifs <;> omega

/-- C2: for every height strictly past `fork2Height`, every old compact
difficulty and every solve time in `[−MAX_FUTURE_BLOCK_TIME,
12 · nPowTargetSpacing]`, with min-difficulty blocks disallowed, the
ASERT-computed next difficulty always passes
`PermittedDifficultyTransition`; equivalently `asert` is monotonically
non-increasing in the solve time, so each such output lies between
`asert(old, 12·spacing)` and `asert(old, −MAX_FUTURE_BLOCK_TIME)`. -/
theorem asert_output_permitted (params : ConsensusParams) (height : ℤ) (old_bits : ℕ) (t : ℤ)
    (hflag : params.fPowAllowMinDifficultyBlocks = false)
    (hh : params.fork2Height < height)
    (hs : 0 < params.nPowTargetSpacing)
    (hlim : params.powLimit2 ≤ 4294967295)
    (ht1 : -MAX_FUTURE_BLOCK_TIME ≤ t) (ht2 : t ≤ 12 * params.nPowTargetSpacing) :
    PermittedDifficultyTransition params height old_bits (asert old_bits t height params) = true ∧
    asert old_bits (12 * params.nPowTargetSpacing) height params ≤ asert old_bits t height params ∧
    asert old_bits t height params ≤ asert old_bits (-MAX_FUTURE_BLOCK_TIME) height params ∧
    (∀ t1 t2 : ℤ, t1 ≤ t2 →
      asert old_bits t2 height params ≤ asert old_bits t1 height params) := by
  have hlow : asert old_bits (12 * params.nPowTargetSpacing) height params ≤
      asert old_bits t height params := asert_le_asert params old_bits height hs hlim ht2
  have hhigh : asert old_bits t height params ≤
      asert old_bits (-MAX_FUTURE_BLOCK_TIME) height params :=
    asert_le_asert params old_bits height hs hlim ht1
  refine ⟨?_, hlow, hhigh, fun t1 t2 h12 => asert_le_asert params old_bits height hs hlim h12⟩
  unfold PermittedDifficultyTransition
  rw [if_neg (by simp [hflag]), if_pos hh.le, if_neg (by omega : ¬ height = params.fork2Height),
    if_neg (by omega), if_neg (by omega)]

/-- Concrete instantiation of `asert_output_permitted` on mainnet
parameters just past the second fork. -/
theorem asert_output_permitted_witness :
    PermittedDifficultyTransition mainnetParams 1482769 153600
      (asert 153600 0 1482769 mainnetParams) = true ∧
    asert 153600 (12 * mainnetParams.nPowTargetSpacing) 1482769 mainnetParams ≤
      asert 153600 0 1482769 mainnetParams ∧
    asert 153600 0 1482769 mainnetParams ≤
      asert 153600 (-MAX_FUTURE_BLOCK_TIME) 1482769 mainnetParams ∧
    (∀ t1 t2 : ℤ, t1 ≤ t2 →
      asert 153600 t2 1482769 mainnetParams ≤ asert 153600 t1 1482769 mainnetParams) :=
  asert_output_permitted mainnetParams 1482769 153600 0 (by decide) (by decide) (by decide)
    (by decide) (by decide) (by decide)

/-! ### C6: identity retarget at exact-target timespan -/

/-- C6: a pre-fork2 retarget at a difficulty-adjustment-interval
boundary, with the actual timespan exactly equal to the target timespan
and no superblock-interval correction applicable, returns the parent's
`nBits` unchanged: raising the decoded difficulty to the power
`3 + |pattern|`, scaling by `targetTimespan / actualTimespan = 1` and
taking the same-degree integer root is the identity, for normalized
compact encodings at or above the minimum difficulty. -/
theorem calculateNextWork_identity (params : ConsensusParams) (last : BlockIndexData)
    (nFirstBlockTime : ℤ)
    (hnoret : params.fPowNoRetargeting = false)
    (hfork2 : last.nHeight + 1 < params.fork2Height)
    (hT : 0 < params.nPowTargetTimespan) (hT32 : params.nPowTargetTimespan < 4294967296)
    (hts : last.nTime - nFirstBlockTime = params.nPowTargetTimespan)
    (hboundary : (last.nHeight + 1).tmod params.DifficultyAdjustmentInterval = 0)
    (hpat : params.powAcceptedPatterns1 ≠ [])
    (hnosb : ¬ (params.fork1Height ≤ last.nHeight + 1 ∧
      (isInSuperblockInterval (last.nHeight + 1) params = true ∨
        isInSuperblockInterval last.nHeight params = true)))
    (hmin : params.powLimit % 2 ^ 23 / 2 ^ 8 ≤ SetCompact last.nBits)
    (hround : GetCompact (SetCompact last.nBits) = last.nBits) :
    CalculateNextWorkRequired last nFirstBlockTime params = last.nBits := by
  simp only [CalculateNextWorkRequired]
  rw [if_neg (by simp [hnoret]), if_neg (by omega), hts]
  have ha1 : (if last.nHeight + 1 ≠ params.DifficultyAdjustmentInterval then
      if params.nPowTargetTimespan < params.nPowTargetTimespan.tdiv 4 then
        params.nPowTargetTimespan.tdiv 4
      else if params.nPowTargetTimespan > params.nPowTargetTimespan * 4 then
        params.nPowTargetTimespan * 4
      else params.nPowTargetTimespan
    else params.nPowTargetTimespan) = params.nPowTargetTimespan := by
    have h4 : params.nPowTargetTimespan.tdiv 4 ≤ params.nPowTargetTimespan := by
      rw [Int.tdiv_eq_ediv hT.le (by norm_num)]
      exact Int.ediv_le_self 4 hT.le
    split_ifs <;> omega
  rw [ha1]
  have hTnat : (params.nPowTargetTimespan % 4294967296).toNat = params.nPowTargetTimespan.toNat := by
    rw [Int.emod_eq_of_lt hT.le (by omega)]
  rw [hTnat]
  have hTpos : 0 < params.nPowTargetTimespan.toNat := by omega
  rw [Nat.mul_div_cancel _ hTpos]
  have hnosb2 : (if params.fork1Height ≤ last.nHeight + 1 ∧ last.nHeight + 1 < params.fork2Height then
      if isInSuperblockInterval (last.nHeight + 1) params then
        SetCompact last.nBits ^ (3 + params.powAcceptedPatterns1.headI.length) * 68 / 75
      else if isInSuperblockInterval last.nHeight params then
        SetCompact last.nBits ^ (3 + params.powAcceptedPatterns1.headI.length) * 75 / 68
      else SetCompact last.nBits ^ (3 + params.powAcceptedPatterns1.headI.length)
    else SetCompact last.nBits ^ (3 + params.powAcceptedPatterns1.headI.length)) =
      SetCompact last.nBits ^ (3 + params.powAcceptedPatterns1.headI.length) := by
    by_cases hout : params.fork1Height ≤ last.nHeight + 1 ∧ last.nHeight + 1 < params.fork2Height
    · rw [if_pos hout]
      have h1 : isInSuperblockInterval (last.nHeight + 1) params = false := by
        rcases Bool.eq_false_or_eq_true (isInSuperblockInterval (last.nHeight + 1) params) with hb | hb
        · exact absurd ⟨hout.1, Or.inl hb⟩ hnosb
        · exact hb
      have h2 : isInSuperblockInterval last.nHeight params = false := by
        rcases Bool.eq_false_or_eq_true (isInSuperblockInterval last.nHeight params) with hb | hb
        · exact absurd ⟨hout.1, Or.inr hb⟩ hnosb
        · exact hb
      rw [h1, h2]
      simp
    · rw [if_neg hout]
  rw [hnosb2, iroot_pow_self _ _ (by omega), if_neg (by omega),
    Nat.mod_eq_of_lt (SetCompact_lt _), hround]

/-- Concrete instantiation of `calculateNextWork_identity`: mainnet, the
first difficulty-adjustment boundary (next height 288), minimum
difficulty 304, actual timespan exactly 12 hours. -/
theorem calculateNextWork_identity_witness :
    CalculateNextWorkRequired ⟨287, 33632256, 1392122941⟩ 1392079741 mainnetParams = 33632256 :=
  calculateNextWork_identity mainnetParams ⟨287, 33632256, 1392122941⟩ 1392079741
    (by decide) (by decide) (by decide) (by decide) (by decide) (by decide) (by decide)
    (by decide) (by decide) (by decide)

/-! ### C7: the fractional padding formula of the version-1 target -/

/-- The integer fractional-padding formula used by `GenerateTarget` for
PoW version 1 (`src/pow.cpp` line 271): `>> 23` is division by `2^23`. -/
def fracPadding (df : ℕ) : ℕ :=
  (10 * df * df * df + 7383 * df * df + 5840720 * df + 3997440) / 2 ^ 23

set_option maxRecDepth 4000 in
/-- The C++ expression is evaluated in `uint32_t`; for every fractional
byte it stays below `2^32`, so the plain `ℕ` model is exact. -/
theorem fracPadding_no_overflow :
    ∀ df < 256, 10 * df * df * df + 7383 * df * df + 5840720 * df + 3997440 < 4294967296 := by
  decide

set_option maxRecDepth 4000 in
/-- C7: for every fractional difficulty byte, the integer cubic formula
equals the real-valued padding length `round(2^(8 + df/256) − 2^8)`. -/
theorem fracPadding_eq_round (df : ℕ) (hdf : df < 256) :
    (fracPadding df : ℤ) = round ((2 : ℝ) ^ ((8 : ℝ) + (df : ℝ) / 256) - 2 ^ 8) := by
  have key : ∀ d < 256, (511 + 2 * fracPadding d) ^ 256 < 2 ^ d * 512 ^ 256 ∧
      2 ^ d * 512 ^ 256 < (513 + 2 * fracPadding d) ^ 256 := by decide
  obtain ⟨k1, k2⟩ := key df hdf
  set L := fracPadding df with hL
  set x : ℝ := (2 : ℝ) ^ ((df : ℝ) / 256) with hx
  have hxpos : 0 < x := Real.rpow_pos_of_pos (by norm_num) _
  have hxpow : x ^ (256 : ℕ) = 2 ^ df := by
    rw [hx, ← Real.rpow_natCast ((2 : ℝ) ^ ((df : ℝ) / 256)) 256,
      ← Real.rpow_mul (by norm_num : (0 : ℝ) ≤ 2)]
    rw [show ((256 : ℕ) : ℝ) = (256 : ℝ) by norm_num,
      div_mul_cancel₀ _ (by norm_num : (256 : ℝ) ≠ 0)]
    exact Real.rpow_natCast 2 df
  have e2 : ((2 : ℕ) : ℝ) = (2 : ℝ) := by norm_num
  have e512 : ((512 : ℕ) : ℝ) = (512 : ℝ) := by norm_num
  have hbpos : (0 : ℝ) < 512 * x := by
    have := mul_pos (show (0 : ℝ) < 512 by norm_num) hxpos
    simpa using this
  have r1 : ((511 + 2 * L : ℕ) : ℝ) < 512 * x := by
    have hcast : (((511 + 2 * L) ^ 256 : ℕ) : ℝ) < (((2 ^ df * 512 ^ 256) : ℕ) : ℝ) :=
      Nat.cast_lt.mpr k1
    rw [Nat.cast_pow, Nat.cast_mul, Nat.cast_pow, Nat.cast_pow, e2, e512,
      mul_comm ((2 : ℝ) ^ df)] at hcast
    have h1 : ((511 + 2 * L : ℕ) : ℝ) ^ (256 : ℕ) < (512 * x) ^ (256 : ℕ) := by
      rw [mul_pow, hxpow]
      exact hcast
    exact (pow_lt_pow_iff_left₀ (Nat.cast_nonneg _) hbpos.le (by norm_num)).mp h1
  have r2 : 512 * x < ((513 + 2 * L : ℕ) : ℝ) := by
    have hcast : (((2 ^ df * 512 ^ 256) : ℕ) : ℝ) < (((513 + 2 * L) ^ 256 : ℕ) : ℝ) :=
      Nat.cast_lt.mpr k2
    rw [Nat.cast_pow, Nat.cast_mul, Nat.cast_pow, Nat.cast_pow, e2, e512,
      mul_comm ((2 : ℝ) ^ df)] at hcast
    have h1 : (512 * x) ^ (256 : ℕ) < ((513 + 2 * L : ℕ) : ℝ) ^ (256 : ℕ) := by
      rw [mul_pow, hxpow]
      exact hcast
    exact (pow_lt_pow_iff_left₀ hbpos.le (Nat.cast_nonneg _) (by norm_num)).mp h1
  have hrw : (2 : ℝ) ^ ((8 : ℝ) + (df : ℝ) / 256) - 2 ^ 8 = 256 * x - 256 := by
    rw [Real.rpow_add (by norm_num : (0 : ℝ) < 2), hx]
    have h28 : (2 : ℝ) ^ (8 : ℝ) = 256 := by
      rw [show (8 : ℝ) = ((8 : ℕ) : ℝ) by norm_num, Real.rpow_natCast]
      norm_num
    rw [h28]
    norm_num
  rw [hrw, round_eq]
  push_cast at r1 r2
  have hfl : ⌊256 * x - 256 + 1 / 2⌋ = (L : ℤ) := by
    rw [Int.floor_eq_iff]
    constructor
    · push_cast
      linarith
    · push_cast
      linarith
  rw [hfl]

/-- Concrete instantiation of `fracPadding_eq_round` at the fractional
byte 37. -/
theorem fracPadding_eq_round_witness :
    (fracPadding 37 : ℤ) = round ((2 : ℝ) ^ ((8 : ℝ) + ((37 : ℕ) : ℝ) / 256) - 2 ^ 8) :=
  fracPadding_eq_round 37 (by decide)

/-! ### Prime table (`GeneratePrimeTable`, `src/pow.cpp` lines 304-326) -/

/-- The composite-marking bit array of `GeneratePrimeTable`: the C++
`vector<uint64_t>` array is modelled as one natural number whose bit `m`
is the mark for the odd number `2m+1` (bit `m & 63` of word `m >> 6` in
the source); `|= 1 << m` is `||| 2 ^ m` and the bit reads are `testBit`.
The outer loop runs over odd `f` while `f · f ≤ limit`, the inner loop
over `m` from `(f·f) >> 1` to `limit >> 1` in steps of `f`. -/
def sieveTable (limit : ℕ) : ℕ :=
  ((List.range' 3 ((limit + 1) / 2) 2).takeWhile (fun f => f * f ≤ limit)).foldl
    (fun (table f : ℕ) =>
      if table.testBit (f / 2) then table
      else
        (List.range' ((f * f) / 2) ((limit / 2 - (f * f) / 2) / f + 1) f).foldl
          (fun t m => t ||| 2 ^ m) table)
    0

/-- The sieve of Eratosthenes over odd numbers (`GeneratePrimeTable`):
below 2 the table is empty, otherwise 2 is pushed first and then every
odd `2i+1 ≤ limit` whose bit is clear in the composite array. -/
def GeneratePrimeTable (limit : ℕ) : List ℕ :=
  if limit < 2 then []
  else
    2 ::
      ((List.range' 1 ((limit - 1) / 2)).filter
        (fun i => !(sieveTable limit).testBit i)).map (fun i => 2 * i + 1)

/-- The global prime table used to compute primorials while checking
versioned proofs of work (`src/pow.cpp` line 326). -/
def primeTable : List ℕ := GeneratePrimeTable 821641

/-! ### Target generation (`GenerateTarget`, `src/pow.cpp` lines 254-289) -/

/-- Constructs the proof-of-work target from the block hash and the
compact difficulty, returning the target together with the number of
trailing zero bits the offset may occupy; a difficulty below the 265
mandatory significant bits yields zero trailing bits (failure).  Version
`-1` interleaves the hash bit by bit after an 8-bit `1 0000 0000`
prefix; version `1` uses the fractional padding length and appends the
hash as a little-endian 256-bit suffix. -/
def GenerateTarget (hash : List ℕ) (nBits : ℕ) (powVersion : ℤ) : ℕ × ℕ :=
  if powVersion = -1 then
    if nBits % 2 ^ 23 / 2 ^ 8 < 265 then
      ((List.range 256).foldl
        (fun t i => 2 * t + ((hash.getD (i / 8) 0 >>> (i % 8)) &&& 1)) 256, 0)
    else
      ((List.range 256).foldl
        (fun t i => 2 * t + ((hash.getD (i / 8) 0 >>> (i % 8)) &&& 1)) 256 *
          2 ^ (nBits % 2 ^ 23 / 2 ^ 8 - 265),
        nBits % 2 ^ 23 / 2 ^ 8 - 265)
  else if powVersion = 1 then
    if nBits / 2 ^ 8 + 1 < 265 then
      ((256 + fracPadding (nBits % 256)) * 2 ^ 256 + leNat hash, 0)
    else
      (((256 + fracPadding (nBits % 256)) * 2 ^ 256 + leNat hash) *
        2 ^ (nBits / 2 ^ 8 + 1 - 265),
        nBits / 2 ^ 8 + 1 - 265)
  else (0, 0)

/-! ### Constellation check (`CheckConstellation`, `src/pow.cpp` lines
291-302) and proof-of-work check (`CheckProofOfWork`, lines 328-391) -/

/-- The constellation check: the pattern entries are added cumulatively
to `n` and each partial sum is handed to the (abstract, GMP-provided)
`mpz_probab_prime_p` oracle; the count of successes up to the first
failure is returned. -/
def CheckConstellation (probPrime : ℤ → ℕ → ℕ) : ℤ → List ℤ → ℕ → ℕ
  | _, [], _ => 0
  | n, o :: rest, iterations =>
    if probPrime (n + o) iterations = 0 then 0
    else CheckConstellation probPrime (n + o) rest iterations + 1

/-- The primorial accumulation loop of the versioned `CheckProofOfWork`
path: multiply the first `k` table primes together, failing as soon as
the partial product exceeds the offset limit. -/
def primorialLoop (limit : ℕ) : ℕ → ℕ → ℕ → Option ℕ
  | _, 0, acc => some acc
  | i, k + 1, acc =>
    if acc * primeTable.getD i 0 > limit then none
    else primorialLoop limit (i + 1) k (acc * primeTable.getD i 0)

/-- The decoded offset of the versioned path:
`Δ = P − (target mod P) + f·P + r`. -/
def versionedOffset (target P f r : ℕ) : ℕ := P - target % P + f * P + r

/-- The pattern loop at the end of `CheckProofOfWork`: a candidate is
accepted if some accepted pattern passes both the 1-iteration pre-filter
and the 31-iteration check over its full length. -/
def patternAccept (probPrime : ℤ → ℕ → ℕ) (result : ℤ) (patterns : List (List ℤ)) : Bool :=
  patterns.any fun pattern =>
    (CheckConstellation probPrime result pattern 1 == pattern.length) &&
      (CheckConstellation probPrime result pattern 31 == pattern.length)

/-- The common tail of `CheckProofOfWork` once the PoW version has been
decoded: build the target, decode the offset (raw for the legacy
version, primorial-structured for version 1), enforce the offset limit,
and run the pattern checks. -/
def checkPoWMain (probPrime : ℤ → ℕ → ℕ) (hash : List ℕ) (nBits : ℕ) (nOnce : List ℕ)
    (params : ConsensusParams) (powVersion : ℤ) : Bool :=
  match (if powVersion = -1 then some (leNat nOnce)
    else
      match primorialLoop (2 ^ (GenerateTarget hash nBits powVersion).2) 0
        (leNat ((nOnce.drop 30).take 2)) 1 with
      | none => none
      | some P =>
        some (versionedOffset (GenerateTarget hash nBits powVersion).1 P
          (leNat ((nOnce.drop 14).take 16)) (leNat ((nOnce.drop 2).take 12)))) with
  | none => false
  | some offset =>
    if offset ≥ 2 ^ (GenerateTarget hash nBits powVersion).2 then false
    else
      patternAccept probPrime (((GenerateTarget hash nBits powVersion).1 : ℤ) + offset)
        (if powVersion = -1 then params.powAcceptedPatterns1 else params.powAcceptedPatterns2)

/-- The proof-of-work check: genesis exemption, version decoding from
the low bits of the offset field, the legacy sanity bounds, then the
common target, offset and pattern checks. -/
def CheckProofOfWork (probPrime : ℤ → ℕ → ℕ) (hash : List ℕ) (nBits : ℕ) (nOnce : List ℕ)
    (params : ConsensusParams) : Bool :=
  if hash = params.hashGenesisBlockForPoW then true
  else if leNat (nOnce.take 8) % 2 = 1 then
    if nBits > 34210816 then false
    else if nBits < 33632256 then false
    else checkPoWMain probPrime hash nBits nOnce params (-1)
  else if leNat (nOnce.take 8) % 65536 = 2 then
    checkPoWMain probPrime hash nBits nOnce params 1
  else false

/-! ### C10: CheckConstellation tests cumulative partial sums -/

/-- The tuple members tested by `CheckConstellation`: the partial sums
`n + o₁, n + o₁ + o₂, …` of the pattern offsets. -/
def cumMembers : ℤ → List ℤ → List ℤ
  | _, [] => []
  | n, o :: rest => (n + o) :: cumMembers (n + o) rest

theorem cumMembers_length (n : ℤ) (pattern : List ℤ) :
    (cumMembers n pattern).length = pattern.length := by
  induction pattern generalizing n with
  | nil => rfl
  | cons o rest ih => simp [cumMembers, ih]

theorem checkConstellation_eq_takeWhile (probPrime : ℤ → ℕ → ℕ) (n : ℤ)
    (pattern : List ℤ) (iterations : ℕ) :
    CheckConstellation probPrime n pattern iterations =
      ((cumMembers n pattern).takeWhile (fun m => probPrime m iterations != 0)).length := by
  induction pattern generalizing n with
  | nil => rfl
  | cons o rest ih =>
    simp only [CheckConstellation, cumMembers, List.takeWhile]
    by_cases hz : probPrime (n + o) iterations = 0
    · simp [hz]
    · have hb : (probPrime (n + o) iterations != 0) = true := bne_iff_ne.mpr hz
      simp [hz, hb, ih (n + o)]

theorem checkConstellation_full_iff (probPrime : ℤ → ℕ → ℕ) (n : ℤ)
    (pattern : List ℤ) (iterations : ℕ) :
    CheckConstellation probPrime n pattern iterations = pattern.length ↔
      ∀ m ∈ cumMembers n pattern, probPrime m iterations ≠ 0 := by
  induction pattern generalizing n with
  | nil => simp [CheckConstellation, cumMembers]
  | cons o rest ih =>
    simp only [CheckConstellation, cumMembers, List.length_cons, List.mem_cons]
    by_cases hz : probPrime (n + o) iterations = 0
    · simp only [if_pos hz]
      constructor
      · omega
      · intro h
        exact absurd hz (h (n + o) (Or.inl rfl))
    · simp only [if_neg hz]
      constructor
      · intro h m hm
        rcases hm with rfl | hm
        · exact hz
        · exact (ih (n + o)).mp (by omega) m hm
      · intro h
        have := (ih (n + o)).mpr (fun m hm => h m (Or.inr hm))
        omega

/-- C10: `CheckConstellation` interprets pattern entries cumulatively —
it returns the length of the longest prefix of the partial sums all
accepted by the primality oracle, never exceeding the pattern length;
and the pattern loop of `CheckProofOfWork` accepts a candidate exactly
when some accepted pattern has every partial-sum member passing both the
1-iteration and the 31-iteration test. -/
theorem checkConstellation_cumulative (probPrime : ℤ → ℕ → ℕ) (n : ℤ)
    (pattern : List ℤ) (iterations : ℕ) (result : ℤ) (patterns : List (List ℤ)) :
    CheckConstellation probPrime n pattern iterations =
      ((cumMembers n pattern).takeWhile (fun m => probPrime m iterations != 0)).length ∧
    CheckConstellation probPrime n pattern iterations ≤ pattern.length ∧
    (CheckConstellation probPrime n pattern iterations = pattern.length ↔
      ∀ m ∈ cumMembers n pattern, probPrime m iterations ≠ 0) ∧
    (patternAccept probPrime result patterns = true ↔
      ∃ pat ∈ patterns, ∀ m ∈ cumMembers result pat,
        probPrime m 1 ≠ 0 ∧ probPrime m 31 ≠ 0) := by
  refine ⟨checkConstellation_eq_takeWhile probPrime n pattern iterations, ?_, ?_, ?_⟩
  · rw [checkConstellation_eq_takeWhile]
    calc ((cumMembers n pattern).takeWhile (fun m => probPrime m iterations != 0)).length
        ≤ (cumMembers n pattern).length :=
          ( List.takeWhile_prefix (l := cumMembers n pattern) _).length_le
    _ = pattern.length := cumMembers_length n pattern
  · exact checkConstellation_full_iff probPrime n pattern iterations
  · unfold patternAccept
    rw [List.any_eq_true]
    constructor
    · rintro ⟨pat, hpat, hcond⟩
      rw [Bool.and_eq_true, beq_iff_eq, beq_iff_eq] at hcond
      refine ⟨pat, hpat, fun m hm => ⟨?_, ?_⟩⟩
      · exact (checkConstellation_full_iff probPrime result pat 1).mp hcond.1 m hm
      · exact (checkConstellation_full_iff probPrime result pat 31).mp hcond.2 m hm
    · rintro ⟨pat, hpat, hcond⟩
      refine ⟨pat, hpat, ?_⟩
      rw [Bool.and_eq_true, beq_iff_eq, beq_iff_eq]
      exact ⟨(checkConstellation_full_iff probPrime result pat 1).mpr
          (fun m hm => (hcond m hm).1),
        (checkConstellation_full_iff probPrime result pat 31).mpr
          (fun m hm => (hcond m hm).2)⟩

/-! ### C5: the versioned offset forces the target into a residue class -/

theorem generatePrimeTable_mem_pos (limit : ℕ) :
    ∀ x ∈ GeneratePrimeTable limit, 0 < x := by
  intro x hx
  unfold GeneratePrimeTable at hx
  split_ifs at hx with h
  · simp at hx
  · rcases List.mem_cons.mp hx with rfl | hx
    · norm_num
    · obtain ⟨i, _, rfl⟩ := List.mem_map.mp hx
      omega

theorem primorialLoop_eq_prod (limit : ℕ) (k : ℕ) :
    ∀ i acc P, i + k ≤ primeTable.length →
      primorialLoop limit i k acc = some P →
      P = acc * ((primeTable.drop i).take k).prod := by
  induction k with
  | zero =>
    intro i acc P _ h
    simp only [primorialLoop, Option.some.injEq] at h
    simp [← h]
  | succ k ih =>
    intro i acc P hlen h
    rw [primorialLoop] at h
    by_cases hgt : acc * primeTable.getD i 0 > limit
    · rw [if_pos hgt] at h
      simp at h
    · rw [if_neg hgt] at h
      have hi : i < primeTable.length := by omega
      have hdrop : primeTable.drop i = primeTable[i] :: primeTable.drop (i + 1) :=
        List.drop_eq_getElem_cons hi
      have hgetD : primeTable.getD i 0 = primeTable[i] := by
        rw [List.getD_eq_getElem?_getD, List.getElem?_eq_getElem hi]
        rfl
      have hrec := ih (i + 1) (acc * primeTable.getD i 0) P (by omega) h
      rw [hrec, hgetD, hdrop, List.take_succ_cons, List.prod_cons]
      ring

/-- C5: in the versioned-offset path of `CheckProofOfWork`, with `P` the
product of the first `k` table primes, the decoded offset
`Δ = P − (target mod P) + f·P + r` satisfies `target + Δ ≡ r (mod P)`;
and the primorial loop, when it succeeds, returns exactly that
product. -/
theorem versionedOffset_residue (target f r kp : ℕ) (htarget : 0 < target)
    (hk : kp ≤ primeTable.length) :
    (target + versionedOffset target ((primeTable.take kp).prod) f r) %
        (primeTable.take kp).prod = r % (primeTable.take kp).prod ∧
    (∀ limit P, primorialLoop limit 0 kp 1 = some P → P = (primeTable.take kp).prod) := by
  constructor
  · set P := (primeTable.take kp).prod with hPdef
    have hP : 0 < P :=
      List.prod_pos (fun x hx =>
        generatePrimeTable_mem_pos 821641 x (List.take_subset kp primeTable hx))
    have hm : target % P < P := Nat.mod_lt target hP
    have hdm : P * (target / P) + target % P = target := Nat.div_add_mod target P
    have hdmz : (P : ℤ) * ((target / P : ℕ) : ℤ) + ((target % P : ℕ) : ℤ) = (target : ℤ) := by
      exact_mod_cast hdm
    have key : target + versionedOffset target P f r = r + (target / P + 1 + f) * P := by
      unfold versionedOffset
      have e1 : (target / P + 1 + f) * P = P * (target / P) + P + f * P := by ring
      rw [e1]
      generalize hPq : P * (target / P) = Pq at hdm ⊢
      generalize hfP : f * P = fP
      omega
    rw [key, Nat.add_mul_mod_self_right]
  · intro limit P h
    have := primorialLoop_eq_prod limit kp 0 1 P (by omega) h
    simpa using this

/-- Concrete instantiation of `versionedOffset_residue` with the first
table prime alone (`P = 2`). -/
theorem versionedOffset_residue_witness :
    (7 + versionedOffset 7 ((primeTable.take 1).prod) 3 5) % (primeTable.take 1).prod =
        5 % (primeTable.take 1).prod ∧
    (∀ limit P, primorialLoop limit 0 1 1 = some P → P = (primeTable.take 1).prod) :=
  versionedOffset_residue 7 3 5 1 (by norm_num)
    (by
      have hne : primeTable ≠ [] := by
        unfold primeTable GeneratePrimeTable
        rw [if_neg (by norm_num)]
        exact List.cons_ne_nil _ _
      exact List.length_pos.mpr hne)

/-! ### C4: difficulty below the 265 mandatory bits is always rejected -/

theorem primeTable_getD_zero : primeTable.getD 0 0 = 2 := by
  unfold primeTable GeneratePrimeTable
  rw [if_neg (by norm_num)]
  rfl

/-- C4: for every block hash other than the genesis PoW hash and every
offset, if the decoded difficulty of `nBits` provides fewer than the 265
mandatory significant bits for the PoW version selected by the offset
(so that `GenerateTarget` signals failure by returning zero trailing
zero bits), then `CheckProofOfWork` returns `false`. -/
theorem checkProofOfWork_rejects_low_difficulty (probPrime : ℤ → ℕ → ℕ)
    (params : ConsensusParams) (hash : List ℕ) (nBits : ℕ) (nOnce : List ℕ)
    (hgen : hash ≠ params.hashGenesisBlockForPoW)
    (h1 : leNat (nOnce.take 8) % 2 = 1 → nBits % 2 ^ 23 / 2 ^ 8 < 265)
    (h2 : leNat (nOnce.take 8) % 2 ≠ 1 → leNat (nOnce.take 8) % 65536 = 2 →
      nBits / 2 ^ 8 + 1 < 265) :
    CheckProofOfWork probPrime hash nBits nOnce params = false := by
  unfold CheckProofOfWork
  rw [if_neg hgen]
  by_cases hv1 : leNat (nOnce.take 8) % 2 = 1
  · rw [if_pos hv1]
    by_cases hb1 : nBits > 34210816
    · rw [if_pos hb1]
    · rw [if_neg hb1]
      by_cases hb2 : nBits < 33632256
      · rw [if_pos hb2]
      · exfalso
        have := h1 hv1
        omega
  · rw [if_neg hv1]
    by_cases hv2 : leNat (nOnce.take 8) % 65536 = 2
    · rw [if_pos hv2]
      have htz : (GenerateTarget hash nBits 1).2 = 0 := by
        unfold GenerateTarget
        rw [if_neg (by norm_num : ¬ (1 : ℤ) = -1), if_pos rfl, if_pos (h2 hv1 hv2)]
      unfold checkPoWMain
      rw [if_neg (by norm_num : ¬ (1 : ℤ) = -1), htz]
      norm_num
      rcases hk : leNat ((nOnce.drop 30).take 2) with _ | k
      · rw [show primorialLoop 1 0 0 1 = some 1 from rfl]
        have hvo : versionedOffset (GenerateTarget hash nBits 1).1 1
            (leNat ((nOnce.drop 14).take 16)) (leNat ((nOnce.drop 2).take 12)) =
            1 + leNat ((nOnce.drop 14).take 16) + leNat ((nOnce.drop 2).take 12) := by
          unfold versionedOffset
          simp [Nat.mod_one]
        simp [hvo]
      · rw [show primorialLoop 1 0 (k + 1) 1 = none by
          rw [primorialLoop, if_pos (by rw [primeTable_getD_zero]; norm_num)]]
    · rw [if_neg hv2]

/-- Concrete instantiation of `checkProofOfWork_rejects_low_difficulty`:
an all-zero hash, a version-1 offset with all structured fields zero,
and a compact difficulty of 100 (far below the 265-bit floor). -/
theorem checkProofOfWork_rejects_low_difficulty_witness :
    CheckProofOfWork (fun _ _ => 2) (List.replicate 32 0) 100
      (2 :: List.replicate 31 0) mainnetParams = false :=
  checkProofOfWork_rejects_low_difficulty (fun _ _ => 2) mainnetParams
    (List.replicate 32 0) 100 (2 :: List.replicate 31 0)
    (by decide) (by decide) (by decide)

/-! ### Deterministic primality oracle (`src/pow/pow_utils.cpp`) -/

/-- The fixed trial-division table of primes up to 997
(`SMALL_PRIMES`). -/
def SMALL_PRIMES : List ℕ :=
  [2, 3, 5, 7, 11, 13, 17, 19, 23, 29, 31, 37, 41, 43, 47, 53,
   59, 61, 67, 71, 73, 79, 83, 89, 97, 101, 103, 107, 109, 113,
   127, 131, 137, 139, 149, 151, 157, 163, 167, 173, 179, 181,
   191, 193, 197, 199, 211, 223, 227, 229, 233, 239, 241, 251,
   257, 263, 269, 271, 277, 281, 283, 293, 307, 311, 313, 317,
   331, 337, 347, 349, 353, 359, 367, 373, 379, 383, 389, 397,
   401, 409, 419, 421, 431, 433, 439, 443, 449, 457, 461, 463,
   467, 479, 487, 491, 499, 503, 509, 521, 523, 541, 547, 557,
   563, 569, 571, 577, 587, 593, 599, 601, 607, 613, 617, 619,
   631, 641, 643, 647, 653, 659, 661, 673, 677, 683, 691, 701,
   709, 719, 727, 733, 739, 743, 751, 757, 761, 769, 773, 787,
   797, 809, 811, 821, 823, 827, 829, 839, 853, 857, 859, 863,
   877, 881, 883, 887, 907, 911, 919, 929, 937, 941, 947, 953,
   967, 971, 977, 983, 991, 997]

/-- Write `d₀ = d · 2^s` with `d` odd, returning `(s, d)` — the
`while (mpz_even_p(d)) { d >>= 1; s++; }` loops of the Miller-Rabin and
Lucas tests (the `d ≠ 0` guard makes the fuel recursion total; the
source never reaches `d = 0`). -/
def factorTwos : ℕ → ℕ → ℕ × ℕ
  | 0, d => (0, d)
  | fuel + 1, d =>
    if d % 2 = 0 ∧ d ≠ 0 then ((factorTwos fuel (d / 2)).1 + 1, (factorTwos fuel (d / 2)).2)
    else (0, d)

/-- The squaring loop of `consensus_miller_rabin` (`for r = 1; r < s;
r++`, so `s − 1` rounds). -/
def mrLoop (n : ℕ) : ℕ → ℕ → Bool
  | 0, _ => false
  | cnt + 1, x =>
    if x * x % n = n - 1 then true
    else if x * x % n = 1 then false
    else mrLoop n cnt (x * x % n)

/-- Miller-Rabin to a fixed base (`consensus_miller_rabin`): write
`n − 1 = d · 2^s`, compute `base^d mod n`, accept on `1` or `n − 1`,
else square up to `s − 1` times looking for `n − 1`. -/
def consensus_miller_rabin (n : ℕ) (base : ℕ) : Bool :=
  if base ^ (factorTwos (n - 1) (n - 1)).2 % n = 1 ∨
      base ^ (factorTwos (n - 1) (n - 1)).2 % n = n - 1 then true
  else mrLoop n ((factorTwos (n - 1) (n - 1)).1 - 1)
    (base ^ (factorTwos (n - 1) (n - 1)).2 % n)

/-- The Selfridge Method A search (`consensus_find_selfridge_d`):
`D = 5, −7, 9, −11, …` until the Jacobi symbol `(D|n)` is `−1`; a zero
Jacobi symbol with `|D| ≠ n` proves compositeness (returns 0), and the
search aborts past `|D| > 10^6`.  GMP's `mpz_jacobi` on an odd positive
modulus is the Jacobi symbol `jacobiSym`. -/
def findDAux (n : ℕ) : ℕ → ℤ → ℤ
  | 0, _ => 0
  | fuel + 1, d =>
    if jacobiSym d n = -1 then d
    else if jacobiSym d n = 0 ∧ d.natAbs ≠ n then 0
    else
      if (if d > 0 then -(d + 2) else -d + 2).natAbs > 1000000 then 0
      else findDAux n fuel (if d > 0 then -(d + 2) else -d + 2)

def consensus_find_selfridge_d (n : ℕ) : ℤ := findDAux n 500001 5

/-- One doubling step of the Lucas ladder, followed (on a set bit of
`d`) by the index increment, exactly as in
`consensus_strong_lucas_selfridge`: `P = 1`, all reductions are GMP
`mpz_mod` (non-negative, `Int.emod`), and the halvings after the
parity fix are `mpz_tdiv_q_2exp` (`Int.tdiv · 2`). -/
def lucasStep (n : ℕ) (D Q : ℤ) (dd : ℕ) (uvq : ℤ × ℤ × ℤ) (i : ℕ) : ℤ × ℤ × ℤ :=
  let u2 : ℤ := uvq.1 * uvq.2.1 % n
  let v2 : ℤ := (uvq.2.1 * uvq.2.1 - 2 * uvq.2.2) % n
  let q2 : ℤ := uvq.2.2 * uvq.2.2 % n
  if dd.testBit i then
    let tmp : ℤ := u2 * 1 + v2
    let u3 : ℤ := Int.tdiv (if tmp % 2 ≠ 0 then tmp + n else tmp) 2 % n
    let tmp2 : ℤ := u2 * D + v2 * 1
    let v3 : ℤ := Int.tdiv (if tmp2 % 2 ≠ 0 then tmp2 + n else tmp2) 2 % n
    (u3, v3, q2 * Q % n)
  else (u2, v2, q2)

/-- The final `V_{d·2^r}` squaring loop (`for r = 1; r < s; r++`). -/
def lucasVLoop (n : ℕ) : ℕ → ℤ → ℤ → Bool
  | 0, _, _ => false
  | cnt + 1, v, q =>
    if (v * v - 2 * q) % n = 0 then true
    else lucasVLoop n cnt ((v * v - 2 * q) % n) (q * q % n)

/-- Strong Lucas-Selfridge test (`consensus_strong_lucas_selfridge`):
perfect squares fail; Selfridge Method A picks `D` (`0` means
composite); with `P = 1`, `Q = (1−D)/4` and `n + 1 = d·2^s`, the Lucas
ladder runs over the bits of `d` from `size − 2` down to `0`, and the
test accepts if `U_d ≡ 0` or some `V_{d·2^r} ≡ 0 (mod n)`, `r < s`. -/
def consensus_strong_lucas_selfridge (n : ℕ) : Bool :=
  if Nat.sqrt n * Nat.sqrt n = n then false
  else if consensus_find_selfridge_d n = 0 then false
  else
    ((List.range (bitlen (factorTwos (n + 1) (n + 1)).2 - 1)).reverse.foldl
      (lucasStep n (consensus_find_selfridge_d n) ((1 - consensus_find_selfridge_d n) / 4)
        (factorTwos (n + 1) (n + 1)).2)
      (1, 1, (1 - consensus_find_selfridge_d n) / 4)).1 = 0 ∨
    ((List.range (bitlen (factorTwos (n + 1) (n + 1)).2 - 1)).reverse.foldl
      (lucasStep n (consensus_find_selfridge_d n) ((1 - consensus_find_selfridge_d n) / 4)
        (factorTwos (n + 1) (n + 1)).2)
      (1, 1, (1 - consensus_find_selfridge_d n) / 4)).2.1 = 0 ∨
    lucasVLoop n ((factorTwos (n + 1) (n + 1)).1 - 1)
      ((List.range (bitlen (factorTwos (n + 1) (n + 1)).2 - 1)).reverse.foldl
        (lucasStep n (consensus_find_selfridge_d n) ((1 - consensus_find_selfridge_d n) / 4)
          (factorTwos (n + 1) (n + 1)).2)
        (1, 1, (1 - consensus_find_selfridge_d n) / 4)).2.1
      ((List.range (bitlen (factorTwos (n + 1) (n + 1)).2 - 1)).reverse.foldl
        (lucasStep n (consensus_find_selfridge_d n) ((1 - consensus_find_selfridge_d n) / 4)
          (factorTwos (n + 1) (n + 1)).2)
        (1, 1, (1 - consensus_find_selfridge_d n) / 4)).2.2

/-- The trial-division loop of `freycoin_is_prime` (indices 1 and up of
`SMALL_PRIMES`): equality short-circuits to prime (`some 2`),
divisibility to composite (`some 0`); `none` means the loop ran out. -/
def trialDivisionLoop (n : ℕ) : List ℕ → Option ℕ
  | [] => none
  | p :: ps => if n = p then some 2 else if n % p = 0 then some 0 else trialDivisionLoop n ps

/-- The deterministic BPSW oracle (`freycoin_is_prime`): returns `0` for
composite and `2` for (probable) prime. -/
def freycoin_is_prime (n : ℕ) : ℕ :=
  if n < 2 then 0
  else if n = 2 then 2
  else if n % 2 = 0 then 0
  else
    match trialDivisionLoop n SMALL_PRIMES.tail with
    | some r => r
    | none =>
      if ¬ consensus_miller_rabin n 2 then 0
      else if ¬ consensus_strong_lucas_selfridge n then 0
      else 2

/-- The pre-filter of `freycoin_nextprime` over the odd small primes:
`true` means the candidate was proved composite by trial division. -/
def nextprimeTrialComposite (candidate : ℕ) : Bool :=
  nextprimeTrialCompositeAux candidate SMALL_PRIMES.tail
where
  nextprimeTrialCompositeAux (candidate : ℕ) : List ℕ → Bool
    | [] => false
    | p :: ps =>
      if candidate = p then false
      else if candidate % p = 0 then true
      else nextprimeTrialCompositeAux candidate ps

/-- The candidate scan of `freycoin_nextprime`; the C++ loop is
unbounded (`while (true)`), so the embedding carries fuel and `some p`
means the loop returns `p` within that many iterations. -/
def nextprimeLoop : ℕ → ℕ → Option ℕ
  | 0, _ => none
  | fuel + 1, candidate =>
    if ¬ nextprimeTrialComposite candidate ∧ freycoin_is_prime candidate = 2 then some candidate
    else nextprimeLoop fuel (candidate + 2)

/-- `freycoin_nextprime`: start at `n + 1` bumped to odd, then step
through odd candidates until the pre-filter plus oracle accepts one. -/
def freycoin_nextprime (fuel n : ℕ) : Option ℕ :=
  nextprimeLoop fuel (if (n + 1) % 2 = 0 then n + 2 else n + 1)

/-! ### C3: the five-step structure of `freycoin_is_prime` -/

theorem smallPrimes_head : SMALL_PRIMES = 2 :: SMALL_PRIMES.tail := rfl

set_option maxRecDepth 4000 in
theorem smallPrimes_pairwise : SMALL_PRIMES.Pairwise (fun p q => ¬ p ∣ q) := by decide

set_option maxRecDepth 4000 in
theorem smallPrimes_tail_odd : ∀ p ∈ SMALL_PRIMES.tail, 2 < p ∧ p % 2 = 1 := by decide

theorem trialDivisionLoop_mem (n : ℕ) (l : List ℕ) (hmem : n ∈ l)
    (hpw : l.Pairwise (fun p q => ¬ p ∣ q)) :
    trialDivisionLoop n l = some 2 := by
  induction l with
  | nil => simp at hmem
  | cons p ps ih =>
    rcases List.mem_cons.mp hmem with rfl | hmem2
    · simp [trialDivisionLoop]
    · have hnd : ¬ p ∣ n := (List.pairwise_cons.mp hpw).1 n hmem2
      have hne : n ≠ p := by
        rintro rfl
        exact hnd dvd_rfl
      rw [trialDivisionLoop, if_neg hne, if_neg (fun hmod => hnd (Nat.dvd_of_mod_eq_zero hmod))]
      exact ih hmem2 (List.pairwise_cons.mp hpw).2

theorem trialDivisionLoop_div (n : ℕ) (l : List ℕ) (hnmem : n ∉ l)
    (hdiv : ∃ p ∈ l, p ∣ n ∧ p ≠ n) :
    trialDivisionLoop n l = some 0 := by
  induction l with
  | nil => simp at hdiv
  | cons p ps ih =>
    have hne : n ≠ p := fun h => hnmem (h ▸ List.mem_cons_self p ps)
    rw [trialDivisionLoop, if_neg hne]
    by_cases hd : n % p = 0
    · rw [if_pos hd]
    · rw [if_neg hd]
      apply ih (fun h => hnmem (List.mem_cons_of_mem p h))
      obtain ⟨q, hq, hqd, hqn⟩ := hdiv
      rcases List.mem_cons.mp hq with rfl | hq2
      · exact absurd (Nat.mod_eq_zero_of_dvd hqd) hd
      · exact ⟨q, hq2, hqd, hqn⟩

theorem trialDivisionLoop_none (n : ℕ) (l : List ℕ) (hnd : ∀ p ∈ l, ¬ p ∣ n) :
    trialDivisionLoop n l = none := by
  induction l with
  | nil => rfl
  | cons p ps ih =>
    have hne : n ≠ p := by
      rintro rfl
      exact hnd n (List.mem_cons_self n ps) dvd_rfl
    rw [trialDivisionLoop, if_neg hne,
      if_neg (fun hmod => hnd p (List.mem_cons_self p ps) (Nat.dvd_of_mod_eq_zero hmod))]
    exact ih (fun q hq => hnd q (List.mem_cons_of_mem p hq))

/-- C3: `freycoin_is_prime` decides primality exactly by the documented
five-step algorithm: composite below 2 and for even `n > 2`, prime for
`n = 2` and for any entry of the trial-division table, composite for
any `n` divisible by (and different from) a table entry, and otherwise
prime exactly when the base-2 Miller-Rabin test and the strong
Lucas-Selfridge test both accept. -/
theorem freycoin_is_prime_characterization (n : ℕ) :
    (n < 2 → freycoin_is_prime n = 0) ∧
    (n = 2 → freycoin_is_prime n = 2) ∧
    (2 < n → n % 2 = 0 → freycoin_is_prime n = 0) ∧
    (n ∈ SMALL_PRIMES → freycoin_is_prime n = 2) ∧
    (n % 2 = 1 → n ∉ SMALL_PRIMES → (∃ p ∈ SMALL_PRIMES, p ∣ n ∧ p ≠ n) →
      freycoin_is_prime n = 0) ∧
    (2 < n → n % 2 = 1 → (∀ p ∈ SMALL_PRIMES, ¬ p ∣ n) →
      (freycoin_is_prime n = 2 ↔
        consensus_miller_rabin n 2 = true ∧ consensus_strong_lucas_selfridge n = true)) := by
  refine ⟨?_, ?_, ?_, ?_, ?_, ?_⟩
  · intro h
    unfold freycoin_is_prime
    rw [if_pos h]
  · intro h
    subst h
    rfl
  · intro h2 heven
    unfold freycoin_is_prime
    rw [if_neg (by omega), if_neg (by omega), if_pos heven]
  · intro hmem
    rw [smallPrimes_head] at hmem
    rcases List.mem_cons.mp hmem with rfl | htail
    · rfl
    · obtain ⟨hgt, hodd⟩ := smallPrimes_tail_odd n htail
      have hpw : SMALL_PRIMES.tail.Pairwise (fun p q => ¬ p ∣ q) := by
        have h := smallPrimes_pairwise
        rw [smallPrimes_head] at h
        exact (List.pairwise_cons.mp h).2
      unfold freycoin_is_prime
      rw [if_neg (by omega), if_neg (by omega), if_neg (by omega),
        trialDivisionLoop_mem n SMALL_PRIMES.tail htail hpw]
  · intro hodd hnmem hdiv
    by_cases hlt : n < 2
    · unfold freycoin_is_prime
      rw [if_pos hlt]
    · unfold freycoin_is_prime
      rw [if_neg hlt, if_neg (by omega), if_neg (by omega)]
      have hloop : trialDivisionLoop n SMALL_PRIMES.tail = some 0 := by
        apply trialDivisionLoop_div
        · intro h
          apply hnmem
          rw [smallPrimes_head]
          exact List.mem_cons_of_mem 2 h
        · obtain ⟨p, hp, hpd, hpn⟩ := hdiv
          rw [smallPrimes_head] at hp
          rcases List.mem_cons.mp hp with rfl | hp2
          · exfalso
            omega
          · exact ⟨p, hp2, hpd, hpn⟩
      rw [hloop]
  · intro h2 hodd hnd
    unfold freycoin_is_prime
    rw [if_neg (by omega), if_neg (by omega), if_neg (by omega),
      trialDivisionLoop_none n SMALL_PRIMES.tail
        (fun p hp => hnd p (by rw [smallPrimes_head]; exact List.mem_cons_of_mem 2 hp))]
    by_cases hmr : consensus_miller_rabin n 2
    · by_cases hls : consensus_strong_lucas_selfridge n
      · simp [hmr, hls]
      · simp [hmr, hls]
    · simp [hmr]

set_option maxRecDepth 4000 in
/-- Concrete instantiation of `freycoin_is_prime_characterization`: the
divisibility clause at `n = 9` (divisible by the table prime 3). -/
theorem freycoin_is_prime_characterization_witness :
    9 % 2 = 1 ∧ 9 ∉ SMALL_PRIMES ∧ (∃ p ∈ SMALL_PRIMES, p ∣ 9 ∧ p ≠ 9) ∧
      freycoin_is_prime 9 = 0 :=
  ⟨by decide, by decide, by decide,
    (freycoin_is_prime_characterization 9).2.2.2.2.1 (by decide) (by decide) (by decide)⟩

/-! ### C8: `freycoin_nextprime` never returns 2 -/

/-- C8 (code bug): the documented contract of `freycoin_nextprime` is
to return the smallest prime strictly greater than `n`, but the
candidate scan starts at an odd number and steps by 2, so 2 is never
tested: at `n = 0` the function returns 3 even though 2 is the smallest
prime greater than 0. -/
theorem freycoin_nextprime_skips_two :
    freycoin_nextprime 2 0 = some 3 ∧ Nat.Prime 2 ∧ (0 : ℕ) < 2 ∧ (2 : ℕ) < 3 := by
  refine ⟨?_, by norm_num, by norm_num, by norm_num⟩
  set_option maxRecDepth 8000 in decide

/-! ### C9: correctness of GeneratePrimeTable.
The development proceeds in layers: a bit-concatenation toolkit; geometric
bit patterns realising each sieving prime's marks in closed form; a SWAR
population count whose five halving stages and digit-sum extraction are a
handful of arithmetic operations on the big sieve word; the characterization
of the faithful sieve's bits through the marking invariant; a balanced,
kernel-evaluable twin of the sieve whose bits coincide pointwise; and the
final counting and indexing arguments for the prime table itself. -/


/-! Bit-concatenation toolkit. -/

theorem concat_mod (a b s : ℕ) (hb : b < 2 ^ s) : (a * 2 ^ s + b) % 2 ^ s = b := by
  rw [Nat.add_comm, Nat.add_mul_mod_self_right, Nat.mod_eq_of_lt hb]

theorem concat_div (a b s : ℕ) (hb : b < 2 ^ s) : (a * 2 ^ s + b) / 2 ^ s = a := by
  rw [Nat.add_comm, Nat.add_mul_div_right _ _ (by positivity), Nat.div_eq_of_lt hb, Nat.zero_add]

theorem concat_lt (a b k s : ℕ) (ha : a < 2 ^ k) (hb : b < 2 ^ s) :
    a * 2 ^ s + b < 2 ^ (k + s) := by
  have h1 : a + 1 ≤ 2 ^ k := ha
  have h2 : (a + 1) * 2 ^ s ≤ 2 ^ k * 2 ^ s := Nat.mul_le_mul_right _ h1
  rw [pow_add]
  calc a * 2 ^ s + b < a * 2 ^ s + 2 ^ s := by omega
  _ = (a + 1) * 2 ^ s := by ring
  _ ≤ 2 ^ k * 2 ^ s := h2

theorem testBit_concat_low (a b s i : ℕ) (hb : b < 2 ^ s) (hi : i < s) :
    (a * 2 ^ s + b).testBit i = b.testBit i := by
  have h := Nat.testBit_mod_two_pow (a * 2 ^ s + b) s i
  rw [concat_mod a b s hb] at h
  rw [h]
  simp [hi]

theorem testBit_concat_high (a b s i : ℕ) (hb : b < 2 ^ s) :
    (a * 2 ^ s + b).testBit (s + i) = a.testBit i := by
  have h : ((a * 2 ^ s + b) >>> s).testBit i = (a * 2 ^ s + b).testBit (s + i) :=
    Nat.testBit_shiftRight _
  rw [Nat.shiftRight_eq_div_pow, concat_div a b s hb] at h
  exact h.symm

theorem concat_land (a b c d s : ℕ) (hb : b < 2 ^ s) (hd : d < 2 ^ s) :
    (a * 2 ^ s + b) &&& (c * 2 ^ s + d) = (a &&& c) * 2 ^ s + (b &&& d) := by
  have hbd : b &&& d < 2 ^ s := by
    calc b &&& d ≤ b := Nat.and_le_left
    _ < 2 ^ s := hb
  apply Nat.eq_of_testBit_eq
  intro i
  rcases Nat.lt_or_ge i s with hi | hi
  · rw [Nat.testBit_and, testBit_concat_low _ _ _ _ hb hi, testBit_concat_low _ _ _ _ hd hi,
      testBit_concat_low _ _ _ _ hbd hi, Nat.testBit_and]
  · obtain ⟨j, rfl⟩ : ∃ j, i = s + j := ⟨i - s, by omega⟩
    rw [Nat.testBit_and, testBit_concat_high _ _ _ _ hb, testBit_concat_high _ _ _ _ hd,
      testBit_concat_high _ _ _ _ hbd, Nat.testBit_and]

theorem concat_lor (a b c d s : ℕ) (hb : b < 2 ^ s) (hd : d < 2 ^ s) :
    (a * 2 ^ s + b) ||| (c * 2 ^ s + d) = (a ||| c) * 2 ^ s + (b ||| d) := by
  have hbd : b ||| d < 2 ^ s := Nat.or_lt_two_pow hb hd
  apply Nat.eq_of_testBit_eq
  intro i
  rcases Nat.lt_or_ge i s with hi | hi
  · rw [Nat.testBit_or, testBit_concat_low _ _ _ _ hb hi, testBit_concat_low _ _ _ _ hd hi,
      testBit_concat_low _ _ _ _ hbd hi, Nat.testBit_or]
  · obtain ⟨j, rfl⟩ : ∃ j, i = s + j := ⟨i - s, by omega⟩
    rw [Nat.testBit_or, testBit_concat_high _ _ _ _ hb, testBit_concat_high _ _ _ _ hd,
      testBit_concat_high _ _ _ _ hbd, Nat.testBit_or]

theorem land_two_pow_sub_one (x s : ℕ) : x &&& (2 ^ s - 1) = x % 2 ^ s :=
  Nat.and_pow_two_sub_one_eq_mod x s

/-! Geometric bit patterns: `geom p c = Σ_{j<c} 2^(p·j)`, as the closed form
the sieve twin evaluates. -/

def geom (p c : ℕ) : ℕ := (2 ^ (p * c) - 1) / (2 ^ p - 1)

theorem geom_zero (p : ℕ) : geom p 0 = 0 := by
  simp [geom]

theorem geom_succ (p c : ℕ) (hp : 1 ≤ p) :
    geom p (c + 1) = geom p c + 2 ^ (p * c) := by
  have hd : (0 : ℕ) < 2 ^ p - 1 := by
    have : (2 : ℕ) ^ 1 ≤ 2 ^ p := Nat.pow_le_pow_right (by norm_num) hp
    omega
  have hdvd : (2 ^ p - 1) ∣ (2 ^ (p * c) - 1) := by
    have := nat_sub_dvd_pow_sub_pow (2 ^ p) 1 c
    rwa [one_pow, ← pow_mul] at this
  obtain ⟨q, hq⟩ := hdvd
  have h1 : (1 : ℕ) ≤ 2 ^ (p * c) := Nat.one_le_two_pow
  have h4 : (1 : ℕ) ≤ 2 ^ p := Nat.one_le_two_pow
  have hnum : 2 ^ (p * (c + 1)) - 1 = (2 ^ p - 1) * (q + 2 ^ (p * c)) := by
    have h2 : 2 ^ (p * (c + 1)) = 2 ^ (p * c) * 2 ^ p := by
      rw [← pow_add]
      ring_nf
    have h3 : (2 ^ p - 1) * q = 2 ^ (p * c) - 1 := hq.symm
    have hexp : (2 ^ p - 1) * (q + 2 ^ (p * c)) =
        (2 ^ p - 1) * q + (2 ^ p - 1) * 2 ^ (p * c) := by ring
    have h5 : (2 ^ p - 1) * 2 ^ (p * c) = 2 ^ p * 2 ^ (p * c) - 1 * 2 ^ (p * c) :=
      Nat.sub_mul _ _ _
    have hcomm : 2 ^ p * 2 ^ (p * c) = 2 ^ (p * c) * 2 ^ p := mul_comm _ _
    have hAB : 2 ^ (p * c) ≤ 2 ^ p * 2 ^ (p * c) := Nat.le_mul_of_pos_left _ (by positivity)
    omega
  unfold geom
  rw [hnum, Nat.mul_div_cancel_left _ hd, hq, Nat.mul_div_cancel_left _ hd]

theorem geom_succ_front (p c : ℕ) (hp : 1 ≤ p) :
    geom p (c + 1) = 1 + 2 ^ p * geom p c := by
  have hd : (0 : ℕ) < 2 ^ p - 1 := by
    have : (2 : ℕ) ^ 1 ≤ 2 ^ p := Nat.pow_le_pow_right (by norm_num) hp
    omega
  have hdvd : (2 ^ p - 1) ∣ (2 ^ (p * c) - 1) := by
    have := nat_sub_dvd_pow_sub_pow (2 ^ p) 1 c
    rwa [one_pow, ← pow_mul] at this
  obtain ⟨q, hq⟩ := hdvd
  have h1 : (1 : ℕ) ≤ 2 ^ (p * c) := Nat.one_le_two_pow
  have h4 : (1 : ℕ) ≤ 2 ^ p := Nat.one_le_two_pow
  have hnum : 2 ^ (p * (c + 1)) - 1 = (2 ^ p - 1) * (1 + 2 ^ p * q) := by
    have h2 : 2 ^ (p * (c + 1)) = 2 ^ p * 2 ^ (p * c) := by
      rw [← pow_add]
      ring_nf
    have hexp : (2 ^ p - 1) * (1 + 2 ^ p * q) =
        (2 ^ p - 1) * 1 + 2 ^ p * ((2 ^ p - 1) * q) := by ring
    have h6 : 2 ^ p * ((2 ^ p - 1) * q) = 2 ^ p * (2 ^ (p * c) - 1) := by rw [hq]
    have h7 : 2 ^ p * (2 ^ (p * c) - 1) = 2 ^ p * 2 ^ (p * c) - 2 ^ p * 1 := Nat.mul_sub _ _ _
    have hAB : 2 ^ p ≤ 2 ^ p * 2 ^ (p * c) := Nat.le_mul_of_pos_right _ (by positivity)
    omega
  unfold geom
  rw [hnum, Nat.mul_div_cancel_left _ hd, hq, Nat.mul_div_cancel_left _ hd]

theorem geom_lt_two_pow (p c : ℕ) (hp : 1 ≤ p) : geom p c < 2 ^ (p * c) := by
  induction c with
  | zero => simp [geom_zero]
  | succ c ih =>
    rw [geom_succ p c hp]
    have h2 : 2 ^ (p * c) * 2 ^ 1 ≤ 2 ^ (p * (c + 1)) := by
      rw [← pow_add]
      exact Nat.pow_le_pow_right (by norm_num) (by nlinarith)
    omega

theorem geom_testBit (p c : ℕ) (hp : 1 ≤ p) (i : ℕ) :
    (geom p c).testBit i = true ↔ ∃ j, j < c ∧ i = p * j := by
  induction c with
  | zero =>
    rw [geom_zero]
    simp
  | succ c ih =>
    have hor : geom p (c + 1) = 2 ^ (p * c) ||| geom p c := by
      have h := concat_lor 1 0 0 (geom p c) (p * c) (by positivity) (geom_lt_two_pow p c hp)
      simp at h
      rw [geom_succ p c hp, Nat.add_comm]
      exact h.symm
    rw [hor, Nat.testBit_or, Bool.or_eq_true, ih]
    constructor
    · rintro (h | ⟨j, hj, rfl⟩)
      · refine ⟨c, by omega, ?_⟩
        by_contra hne
        rw [Nat.testBit_two_pow_of_ne (fun he => hne he.symm)] at h
        exact Bool.false_ne_true h
      · exact ⟨j, by omega, rfl⟩
    · rintro ⟨j, hj, rfl⟩
      rcases Nat.lt_or_ge j c with hjc | hjc
      · exact Or.inr ⟨j, hjc, rfl⟩
      · have : j = c := by omega
        subst this
        exact Or.inl Nat.testBit_two_pow_self

/-! SWAR population count: five mask-and-add halving stages followed by a
digit-sum extraction modulo `2^32 - 1`, so the whole count is a constant
number of arithmetic operations on the big sieve word. -/

def fieldSum (b : ℕ) : ℕ → ℕ → ℕ
  | 0, _ => 0
  | k + 1, y => y % 2 ^ b + fieldSum b k (y / 2 ^ b)

theorem fieldSum_succ (b k y : ℕ) :
    fieldSum b (k + 1) y = y % 2 ^ b + fieldSum b k (y / 2 ^ b) := rfl

def swarMask (w k : ℕ) : ℕ := (2 ^ w - 1) * geom (2 * w) k

def pairStep (w k x : ℕ) : ℕ := (x &&& swarMask w k) + ((x >>> w) &&& swarMask w k)

theorem swarMask_zero (w : ℕ) : swarMask w 0 = 0 := by
  rw [swarMask, geom_zero, Nat.mul_zero]

theorem swarMask_succ (w k : ℕ) (hw : 1 ≤ w) :
    swarMask w (k + 1) = swarMask w k * 2 ^ (2 * w) + (2 ^ w - 1) := by
  rw [swarMask, geom_succ_front (2 * w) k (by omega), swarMask]
  ring

theorem maskAnd_rec (w k y : ℕ) (hw : 1 ≤ w) :
    y &&& swarMask w (k + 1) = (y / 2 ^ (2 * w) &&& swarMask w k) * 2 ^ (2 * w) + y % 2 ^ w := by
  have hsplit : y = y / 2 ^ (2 * w) * 2 ^ (2 * w) + y % 2 ^ (2 * w) :=
    (Nat.div_add_mod' y (2 ^ (2 * w))).symm
  have hd : (2 : ℕ) ^ w - 1 < 2 ^ (2 * w) := by
    have h1 : (2 : ℕ) ^ w ≤ 2 ^ (2 * w) := Nat.pow_le_pow_right (by norm_num) (by omega)
    have h2 : (0 : ℕ) < 2 ^ w := by positivity
    omega
  calc y &&& swarMask w (k + 1)
      = (y / 2 ^ (2 * w) * 2 ^ (2 * w) + y % 2 ^ (2 * w)) &&&
        (swarMask w k * 2 ^ (2 * w) + (2 ^ w - 1)) := by
        rw [← hsplit, swarMask_succ w k hw]
  _ = (y / 2 ^ (2 * w) &&& swarMask w k) * 2 ^ (2 * w) + (y % 2 ^ (2 * w) &&& (2 ^ w - 1)) :=
        concat_land _ _ _ _ _ (Nat.mod_lt _ (by positivity)) hd
  _ = (y / 2 ^ (2 * w) &&& swarMask w k) * 2 ^ (2 * w) + y % 2 ^ w := by
        rw [land_two_pow_sub_one, Nat.mod_mod_of_dvd _ (pow_dvd_pow 2 (by omega))]

theorem pairStep_rec (w k x : ℕ) (hw : 1 ≤ w) :
    pairStep w (k + 1) x =
      pairStep w k (x / 2 ^ (2 * w)) * 2 ^ (2 * w) + (x % 2 ^ w + x / 2 ^ w % 2 ^ w) := by
  have hshift : x >>> w = x / 2 ^ w := Nat.shiftRight_eq_div_pow x w
  have hdd : x / 2 ^ w / 2 ^ (2 * w) = x / 2 ^ (2 * w) / 2 ^ w := by
    rw [Nat.div_div_eq_div_mul, Nat.div_div_eq_div_mul, mul_comm (2 ^ w)]
  have hs2 : (x / 2 ^ (2 * w)) >>> w = x / 2 ^ w / 2 ^ (2 * w) := by
    rw [Nat.shiftRight_eq_div_pow]
    exact hdd.symm
  rw [pairStep, maskAnd_rec _ _ _ hw, hshift, maskAnd_rec _ _ _ hw, pairStep, hs2]
  ring

theorem fields_div_shift (b x j i : ℕ) :
    x / 2 ^ (b * j) / 2 ^ (b * i) % 2 ^ b = x / 2 ^ (b * (i + j)) % 2 ^ b := by
  rw [Nat.div_div_eq_div_mul, ← pow_add]
  congr 2
  ring

theorem pairStep_fieldSum (w c : ℕ) (hw : 1 ≤ w) (hc : 2 * c < 2 ^ (2 * w)) :
    ∀ k x, x < 2 ^ (2 * w * k) → (∀ i, x / 2 ^ (w * i) % 2 ^ w ≤ c) →
      fieldSum (2 * w) k (pairStep w k x) = fieldSum w (2 * k) x ∧
      pairStep w k x < 2 ^ (2 * w * k) ∧
      (∀ i, pairStep w k x / 2 ^ (2 * w * i) % 2 ^ (2 * w) ≤ 2 * c) := by
  intro k
  induction k with
  | zero =>
    intro x hx _
    have hx0 : x = 0 := by
      simp only [Nat.mul_zero, pow_zero] at hx
      omega
    subst hx0
    have hP0 : pairStep w 0 0 = 0 := by simp [pairStep]
    refine ⟨rfl, ?_, ?_⟩
    · rw [hP0]
      positivity
    · intro i
      rw [hP0]
      simp
  | succ k ih =>
    intro x hx hfld
    have hxd : x / 2 ^ (2 * w) < 2 ^ (2 * w * k) := by
      apply Nat.div_lt_of_lt_mul
      calc x < 2 ^ (2 * w * (k + 1)) := hx
      _ = 2 ^ (2 * w) * 2 ^ (2 * w * k) := by rw [← pow_add]; ring_nf
    have hfld' : ∀ i, x / 2 ^ (2 * w) / 2 ^ (w * i) % 2 ^ w ≤ c := by
      intro i
      have h2w : (2 : ℕ) ^ (2 * w) = 2 ^ (w * 2) := by ring_nf
      rw [h2w, fields_div_shift]
      exact hfld (i + 2)
    obtain ⟨ihFS, ihlt, ihfld⟩ := ih (x / 2 ^ (2 * w)) hxd hfld'
    have he0 : x % 2 ^ w ≤ c := by
      have := hfld 0
      simpa using this
    have he1 : x / 2 ^ w % 2 ^ w ≤ c := by
      have := hfld 1
      simpa using this
    have helt : x % 2 ^ w + x / 2 ^ w % 2 ^ w < 2 ^ (2 * w) := by omega
    have hrec := pairStep_rec w k x hw
    refine ⟨?_, ?_, ?_⟩
    · rw [hrec]
      have h2k : 2 * (k + 1) = 2 * k + 1 + 1 := by ring
      rw [fieldSum_succ, concat_mod _ _ _ helt, concat_div _ _ _ helt, ihFS, h2k,
        fieldSum_succ, fieldSum_succ]
      have hxdd : x / 2 ^ w / 2 ^ w = x / 2 ^ (2 * w) := by
        rw [Nat.div_div_eq_div_mul, ← pow_add]
        congr 1
        ring
      rw [hxdd]
      ring
    · rw [hrec]
      have h := concat_lt _ _ _ _ ihlt helt
      have hfix : 2 * w * k + 2 * w = 2 * w * (k + 1) := by ring
      rw [hfix] at h
      exact h
    · intro i
      rw [hrec]
      cases i with
      | zero =>
        rw [← hrec]
        simpa [hrec, concat_mod _ _ _ helt] using
          (by omega : x % 2 ^ w + x / 2 ^ w % 2 ^ w ≤ 2 * c)
      | succ i =>
        rw [← hrec]
        have hgoal : pairStep w (k + 1) x / 2 ^ (2 * w) / 2 ^ (2 * w * i) % 2 ^ (2 * w) ≤
            2 * c := by
          rw [hrec, concat_div _ _ _ helt]
          exact ihfld i
        have heq : pairStep w (k + 1) x / 2 ^ (2 * w) / 2 ^ (2 * w * i) % 2 ^ (2 * w) =
            pairStep w (k + 1) x / 2 ^ (2 * w * (i + 1)) % 2 ^ (2 * w) := by
          rw [Nat.div_div_eq_div_mul, ← pow_add]
          congr 2
          ring
        rwa [heq] at hgoal

theorem fieldSum_le (b c k : ℕ) :
    ∀ y, (∀ i, y / 2 ^ (b * i) % 2 ^ b ≤ c) → fieldSum b k y ≤ k * c := by
  induction k with
  | zero => intro y _; simp [fieldSum]
  | succ k ih =>
    intro y hy
    rw [fieldSum_succ]
    have h0 : y % 2 ^ b ≤ c := by simpa using hy 0
    have hrest : fieldSum b k (y / 2 ^ b) ≤ k * c := by
      apply ih
      intro i
      have heq : y / 2 ^ b / 2 ^ (b * i) = y / 2 ^ (b * (i + 1)) := by
        rw [Nat.div_div_eq_div_mul, ← pow_add]
        congr 1
        ring
      rw [heq]
      exact hy (i + 1)
    calc y % 2 ^ b + fieldSum b k (y / 2 ^ b) ≤ c + k * c := by omega
    _ = (k + 1) * c := by ring

theorem fieldSum_modEq (b k : ℕ) :
    ∀ y, y < 2 ^ (b * k) → Nat.ModEq (2 ^ b - 1) (fieldSum b k y) y := by
  induction k with
  | zero =>
    intro y hy
    simp only [Nat.mul_zero, pow_zero] at hy
    have hy0 : y = 0 := by omega
    subst hy0
    rfl
  | succ k ih =>
    intro y hy
    have hyd : y / 2 ^ b < 2 ^ (b * k) := by
      apply Nat.div_lt_of_lt_mul
      calc y < 2 ^ (b * (k + 1)) := hy
      _ = 2 ^ b * 2 ^ (b * k) := by rw [← pow_add]; congr 1; ring
    have h2 : Nat.ModEq (2 ^ b - 1) (2 ^ b) 1 :=
      ((Nat.modEq_iff_dvd' Nat.one_le_two_pow).mpr dvd_rfl).symm
    have hmul : Nat.ModEq (2 ^ b - 1) (y / 2 ^ b * 2 ^ b) (y / 2 ^ b) := by
      have := Nat.ModEq.mul_left (y / 2 ^ b) h2
      simpa using this
    calc fieldSum b (k + 1) y = y % 2 ^ b + fieldSum b k (y / 2 ^ b) := rfl
    _ ≡ y % 2 ^ b + y / 2 ^ b [MOD 2 ^ b - 1] := (ih _ hyd).add_left _
    _ ≡ y % 2 ^ b + y / 2 ^ b * 2 ^ b [MOD 2 ^ b - 1] := hmul.symm.add_left _
    _ = y := by rw [Nat.add_comm, Nat.div_add_mod']

theorem fieldSum_one_countP : ∀ B x : ℕ, fieldSum 1 B x = (List.range B).countP (fun i => x.testBit i) := by
  intro B
  induction B with
  | zero => intro x; simp [fieldSum]
  | succ B ih =>
    intro x
    rw [fieldSum_succ, List.range_succ_eq_map, List.countP_cons, List.countP_map]
    have hpred : (List.range B).countP ((fun i => x.testBit i) ∘ Nat.succ) =
        (List.range B).countP (fun i => (x / 2).testBit i) := by
      apply List.countP_congr
      intro a _
      simp only [Function.comp_apply]
      rw [← Nat.testBit_succ]
    rw [hpred, ← ih]
    have hbit : (if x.testBit 0 = true then 1 else 0) = x % 2 := by
      rw [Nat.testBit_zero]
      rcases Nat.mod_two_eq_zero_or_one x with h | h <;> simp [h]
    rw [hbit, pow_one]
    ring

def swarCount (x : ℕ) : ℕ :=
  pairStep 16 16384 (pairStep 8 32768 (pairStep 4 65536 (pairStep 2 131072
    (pairStep 1 262144 x)))) % (2 ^ 32 - 1)

theorem swar_spec (x : ℕ) (hx : x < 2 ^ 524288) :
    swarCount x = (List.range 524288).countP (fun i => x.testBit i) := by
  have hf1 : ∀ i, x / 2 ^ (1 * i) % 2 ^ 1 ≤ 1 := by
    intro i
    have h := Nat.mod_lt (x / 2 ^ (1 * i)) (show (0:ℕ) < 2 ^ 1 by norm_num)
    omega
  obtain ⟨e1, l1, f1⟩ := pairStep_fieldSum 1 1 (by norm_num) (by norm_num) 262144 x hx hf1
  obtain ⟨e2, l2, f2⟩ :=
    pairStep_fieldSum 2 2 (by norm_num) (by norm_num) 131072 (pairStep 1 262144 x) l1 f1
  obtain ⟨e3, l3, f3⟩ :=
    pairStep_fieldSum 4 4 (by norm_num) (by norm_num) 65536
      (pairStep 2 131072 (pairStep 1 262144 x)) l2 f2
  obtain ⟨e4, l4, f4⟩ :=
    pairStep_fieldSum 8 8 (by norm_num) (by norm_num) 32768
      (pairStep 4 65536 (pairStep 2 131072 (pairStep 1 262144 x))) l3 f3
  obtain ⟨e5, l5, f5⟩ :=
    pairStep_fieldSum 16 16 (by norm_num) (by norm_num) 16384
      (pairStep 8 32768 (pairStep 4 65536 (pairStep 2 131072 (pairStep 1 262144 x)))) l4 f4
  set s5 := pairStep 16 16384
    (pairStep 8 32768 (pairStep 4 65536 (pairStep 2 131072 (pairStep 1 262144 x)))) with hs5
  have hchain : fieldSum 32 16384 s5 = fieldSum 1 524288 x := by
    calc fieldSum 32 16384 s5
        = fieldSum 16 32768 (pairStep 8 32768 (pairStep 4 65536 (pairStep 2 131072
            (pairStep 1 262144 x)))) := e5
    _ = fieldSum 8 65536 (pairStep 4 65536 (pairStep 2 131072 (pairStep 1 262144 x))) := e4
    _ = fieldSum 4 131072 (pairStep 2 131072 (pairStep 1 262144 x)) := e3
    _ = fieldSum 2 262144 (pairStep 1 262144 x) := e2
    _ = fieldSum 1 524288 x := e1
  have hFSle : fieldSum 32 16384 s5 ≤ 16384 * 32 := fieldSum_le 32 32 16384 s5 (fun i => f5 i)
  have hmod : Nat.ModEq (2 ^ 32 - 1) (fieldSum 32 16384 s5) s5 := fieldSum_modEq 32 16384 s5 l5
  have hswar : swarCount x = s5 % (2 ^ 32 - 1) := rfl
  rw [hswar]
  have hsm : s5 % (2 ^ 32 - 1) = fieldSum 32 16384 s5 := by
    have hme := hmod.symm
    rw [Nat.ModEq] at hme
    rw [hme, Nat.mod_eq_of_lt (lt_of_le_of_lt hFSle (by norm_num))]
  rw [hsm, hchain, fieldSum_one_countP]

/-! The faithful sieve: inner marking loop as a geometric pattern, candidate
list via the square-bound takeWhile, and the marking invariant. -/

def stridePattern (limit p : ℕ) : ℕ :=
  geom p ((limit / 2 - p * p / 2) / p + 1) <<< (p * p / 2)

theorem foldl_or_range' (step : ℕ) (hstep : 1 ≤ step) :
    ∀ cnt start acc, (List.range' start cnt step).foldl (fun t m => t ||| 2 ^ m) acc
      = acc ||| (geom step cnt <<< start) := by
  intro cnt
  induction cnt with
  | zero =>
    intro start acc
    simp [geom_zero]
  | succ cnt ih =>
    intro start acc
    rw [List.range'_succ, List.foldl_cons, ih]
    rw [Nat.lor_assoc]
    congr 1
    have hA : geom step cnt * 2 ^ step = geom step cnt * 2 ^ (step - 1) * 2 := by
      have h2 : (2 : ℕ) ^ step = 2 ^ (step - 1) * 2 := by
        rw [← pow_succ]
        congr 1
        omega
      rw [h2, ← mul_assoc]
    have h1or : (1 : ℕ) ||| geom step cnt * 2 ^ step = geom step cnt * 2 ^ step + 1 := by
      have h := concat_lor 0 1 (geom step cnt * 2 ^ (step - 1)) 0 1 (by norm_num) (by norm_num)
      simp at h
      rw [hA]
      simpa using h
    have hout := concat_lor 1 0 (geom step cnt * 2 ^ step) 0 start
      (by positivity) (by positivity)
    simp at hout
    have hshift : geom step cnt <<< (start + step) =
        geom step cnt * 2 ^ step * 2 ^ start := by
      rw [Nat.shiftLeft_eq, pow_add]
      ring
    have hkey : (2 : ℕ) ^ start ||| geom step cnt <<< (start + step) =
        (1 + 2 ^ step * geom step cnt) * 2 ^ start := by
      rw [hshift, hout, h1or]
      ring
    rw [hkey, geom_succ_front step cnt hstep, Nat.shiftLeft_eq]

theorem takeWhile_range'_eq (q : ℕ → Bool) (step : ℕ) :
    ∀ n s K, (∀ j, j < n → (q (s + step * j) = true ↔ j < K)) →
      (List.range' s n step).takeWhile q = List.range' s (min n K) step := by
  intro n
  induction n with
  | zero =>
    intro s K _
    simp
  | succ n ih =>
    intro s K h
    rw [List.range'_succ]
    rcases Nat.eq_zero_or_pos K with rfl | hK
    · have h0 : q s = false := by
        have := h 0 (by omega)
        simp only [Nat.mul_zero, Nat.add_zero] at this
        rcases Bool.eq_false_or_eq_true (q s) with ht | hf
        · exact absurd (this.mp ht) (by omega)
        · exact hf
      simp [List.takeWhile_cons, h0]
    · obtain ⟨K', rfl⟩ : ∃ K', K = K' + 1 := ⟨K - 1, by omega⟩
      have h0 : q s = true := by
        have := h 0 (by omega)
        simp only [Nat.mul_zero, Nat.add_zero] at this
        exact this.mpr (by omega)
      rw [List.takeWhile_cons, if_pos h0]
      have hrec := ih (s + step) K' (by
        intro j hj
        have := h (j + 1) (by omega)
        have harith : s + step * (j + 1) = s + step + step * j := by ring
        rw [harith] at this
        constructor
        · intro hq
          have := this.mp hq
          omega
        · intro hjK
          exact this.mpr (by omega))
      rw [hrec]
      have hmin : min (n + 1) (K' + 1) = min n K' + 1 := by omega
      rw [hmin, List.range'_succ]

theorem stridePattern_testBit (limit p i : ℕ) (hp3 : 3 ≤ p) (hodd : p % 2 = 1)
    (hpl : p * p ≤ limit) :
    (stridePattern limit p).testBit i = true ↔
      p ∣ (2 * i + 1) ∧ p * p ≤ 2 * i + 1 ∧ i ≤ limit / 2 := by
  have hp1 : 1 ≤ p := by omega
  have hP2 : p * p % 2 = 1 := by
    have := Nat.mul_mod p p 2
    rw [hodd] at this
    simpa using this
  have hsle : p * p / 2 ≤ limit / 2 := Nat.div_le_div_right hpl
  have hshape : ∀ b, (stridePattern limit p).testBit b = true ↔
      ∃ j, j < (limit / 2 - p * p / 2) / p + 1 ∧ b = p * p / 2 + p * j := by
    intro b
    rw [stridePattern, Nat.shiftLeft_eq, ← Nat.shiftLeft_eq, Nat.testBit_shiftLeft]
    constructor
    · intro h
      rw [Bool.and_eq_true, decide_eq_true_eq] at h
      obtain ⟨hle, hbit⟩ := h
      obtain ⟨j, hj, hjm⟩ := (geom_testBit p _ hp1 _).mp hbit
      exact ⟨j, hj, by omega⟩
    · rintro ⟨j, hj, rfl⟩
      rw [Bool.and_eq_true, decide_eq_true_eq]
      refine ⟨by omega, ?_⟩
      rw [geom_testBit p _ hp1]
      exact ⟨j, hj, by omega⟩
  rw [hshape i]
  constructor
  · rintro ⟨j, hj, rfl⟩
    have hpj : j ≤ (limit / 2 - p * p / 2) / p := by omega
    have hmul : j * p ≤ limit / 2 - p * p / 2 :=
      (Nat.le_div_iff_mul_le (by omega)).mp hpj
    have hcomm : j * p = p * j := mul_comm j p
    have hring : p * (p + 2 * j) = p * p + 2 * (p * j) := by ring
    refine ⟨⟨p + 2 * j, by omega⟩, by omega, by omega⟩
  · rintro ⟨⟨m, hm⟩, hsq, hle⟩
    have hmodd : m % 2 = 1 := by
      rcases Nat.mod_two_eq_zero_or_one m with h | h
      · exfalso
        have := Nat.mul_mod p m 2
        rw [hodd, h] at this
        omega
      · exact h
    have hmp : p ≤ m := by
      by_contra hlt
      push_neg at hlt
      have : p * m < p * p := (Nat.mul_lt_mul_left (show 0 < p by omega)).mpr hlt
      omega
    have hsub : p * (m - p) = p * m - p * p := Nat.mul_sub p m p
    have hj2 : p * (m - p) = 2 * (p * ((m - p) / 2)) := by
      have hev : (m - p) % 2 = 0 := by omega
      have := Nat.div_add_mod (m - p) 2
      have hx : p * (m - p) = p * (2 * ((m - p) / 2) + (m - p) % 2) := by
        rw [Nat.div_add_mod]
      rw [hx, hev]
      ring
    have hcomm2 : (m - p) / 2 * p = p * ((m - p) / 2) := mul_comm _ _
    have hiEq : i = p * p / 2 + p * ((m - p) / 2) := by omega
    refine ⟨(m - p) / 2, ?_, hiEq⟩
    have hple : p * ((m - p) / 2) ≤ limit / 2 - p * p / 2 := by omega
    have hjle : (m - p) / 2 ≤ (limit / 2 - p * p / 2) / p := by
      rw [Nat.le_div_iff_mul_le (by omega : 0 < p)]
      omega
    omega

theorem foldl_orIf_testBit (g : ℕ → ℕ) :
    ∀ (l : List ℕ) (acc i : ℕ),
      ((l.foldl (fun t f => if Nat.Prime f then t ||| g f else t) acc).testBit i = true ↔
        (acc.testBit i = true ∨ ∃ f ∈ l, Nat.Prime f ∧ (g f).testBit i = true)) := by
  intro l
  induction l with
  | nil =>
    intro acc i
    simp
  | cons a l ih =>
    intro acc i
    rw [List.foldl_cons, ih]
    by_cases hp : Nat.Prime a
    · rw [if_pos hp, Nat.testBit_or, Bool.or_eq_true]
      simp only [List.mem_cons]
      constructor
      · rintro ((h | h) | ⟨f, hf, hfp, hfb⟩)
        · (exact Or.inl h)
        · exact Or.inr ⟨a, Or.inl rfl, hp, h⟩
        · exact Or.inr ⟨f, Or.inr hf, hfp, hfb⟩
      · rintro (h | ⟨f, (rfl | hf), hfp, hfb⟩)
        · exact Or.inl (Or.inl h)
        · exact Or.inl (Or.inr hfb)
        · exact Or.inr ⟨f, hf, hfp, hfb⟩
    · rw [if_neg hp]
      simp only [List.mem_cons]
      constructor
      · rintro (h | ⟨f, hf, hfp, hfb⟩)
        · exact Or.inl h
        · exact Or.inr ⟨f, Or.inr hf, hfp, hfb⟩
      · rintro (h | ⟨f, (rfl | hf), hfp, hfb⟩)
        · exact Or.inl h
        · exact absurd hfp hp
        · exact Or.inr ⟨f, hf, hfp, hfb⟩

theorem sieve_foldl_eq (limit : ℕ) :
    ∀ n, (∀ j, j < n → (3 + 2 * j) * (3 + 2 * j) ≤ limit) →
      (List.range' 3 n 2).foldl
        (fun (table f : ℕ) =>
          if table.testBit (f / 2) then table
          else (List.range' ((f * f) / 2) ((limit / 2 - (f * f) / 2) / f + 1) f).foldl
            (fun t m => t ||| 2 ^ m) table) 0
      = (List.range' 3 n 2).foldl
          (fun t f => if Nat.Prime f then t ||| stridePattern limit f else t) 0 := by
  intro n
  induction n with
  | zero =>
    intro _
    rfl
  | succ n ih =>
    intro hsq
    have hsq' : ∀ j, j < n → (3 + 2 * j) * (3 + 2 * j) ≤ limit := fun j hj => hsq j (by omega)
    rw [List.range'_concat, List.foldl_append, List.foldl_append, ih hsq']
    simp only [List.foldl_cons, List.foldl_nil]
    set f := 3 + 2 * n with hf
    set T := (List.range' 3 n 2).foldl
      (fun t f => if Nat.Prime f then t ||| stridePattern limit f else t) 0 with hT
    have hfodd : f % 2 = 1 := by omega
    have hf3 : 3 ≤ f := by omega
    have hffsq : f * f ≤ limit := hsq n (by omega)
    have hfle : f ≤ limit := le_trans (Nat.le_mul_of_pos_left f (by omega)) hffsq
    have hbit : T.testBit (f / 2) = true ↔
        ∃ p ∈ List.range' 3 n 2, Nat.Prime p ∧
          (stridePattern limit p).testBit (f / 2) = true := by
      rw [hT, foldl_orIf_testBit]
      simp
    have hiff : T.testBit (f / 2) = true ↔ ¬ Nat.Prime f := by
      rw [hbit]
      constructor
      · rintro ⟨p, hpmem, hpp, hpb⟩
        rw [List.mem_range'] at hpmem
        obtain ⟨jp, hjp, rfl⟩ := hpmem
        have hp3 : 3 ≤ 3 + 2 * jp := by omega
        have hpodd : (3 + 2 * jp) % 2 = 1 := by omega
        have hppl : (3 + 2 * jp) * (3 + 2 * jp) ≤ limit := hsq jp (by omega)
        rw [stridePattern_testBit limit _ _ hp3 hpodd hppl] at hpb
        obtain ⟨hdvd, hple, _⟩ := hpb
        have h2f : 2 * (f / 2) + 1 = f := by omega
        rw [h2f] at hdvd hple
        intro hfp
        rcases Nat.Prime.eq_one_or_self_of_dvd hfp _ hdvd with h1 | hpf
        · omega
        · rw [hpf] at hple
          have h3f : 3 * f ≤ f * f := Nat.mul_le_mul_right f hf3
          omega
      · intro hnp
        have hf1 : f ≠ 1 := by omega
        have hf0 : 0 < f := by omega
        have hqp : f.minFac.Prime := Nat.minFac_prime hf1
        have hqdvd : f.minFac ∣ f := Nat.minFac_dvd f
        have hqsq : f.minFac * f.minFac ≤ f := by
          have := Nat.minFac_sq_le_self hf0 hnp
          simpa [pow_two] using this
        have hqodd : f.minFac % 2 = 1 := by
          rcases Nat.mod_two_eq_zero_or_one f.minFac with h | h
          · exfalso
            have h2 : 2 ∣ f.minFac := Nat.dvd_of_mod_eq_zero h
            obtain ⟨c, hc⟩ := dvd_trans h2 hqdvd
            omega
          · exact h
        have hq3 : 3 ≤ f.minFac := by
          have := hqp.two_le
          omega
        have hq2 : 2 * (f / 2) + 1 = f := by omega
        have h3q : 3 * f.minFac ≤ f.minFac * f.minFac := Nat.mul_le_mul_right f.minFac hq3
        refine ⟨f.minFac, ?_, hqp, ?_⟩
        · rw [List.mem_range']
          exact ⟨(f.minFac - 3) / 2, by omega, by omega⟩
        · rw [stridePattern_testBit limit _ _ hq3 hqodd (le_trans hqsq hfle), hq2]
          exact ⟨hqdvd, hqsq, Nat.div_le_div_right hfle⟩
    by_cases hmarked : T.testBit (f / 2) = true
    · rw [if_pos hmarked, if_neg (hiff.mp hmarked)]
    · have hfp : Nat.Prime f := by
        by_contra hnp
        exact hmarked (hiff.mpr hnp)
      rw [if_neg hmarked, if_pos hfp, foldl_or_range' f (by omega)]
      rfl

theorem sieveTable_testBit (limit i : ℕ) :
    (sieveTable limit).testBit i = true ↔
      ∃ p, Nat.Prime p ∧ p % 2 = 1 ∧ p * p ≤ limit ∧ p ∣ (2 * i + 1) ∧ p * p ≤ 2 * i + 1 ∧
        i ≤ limit / 2 := by
  have hK : ∀ j, j < (Nat.sqrt limit - 1) / 2 → (3 + 2 * j) * (3 + 2 * j) ≤ limit := by
    intro j hj
    apply (Nat.le_sqrt (m := 3 + 2 * j) (n := limit)).mp
    omega
  have htw : (List.range' 3 ((limit + 1) / 2) 2).takeWhile (fun f => f * f ≤ limit) =
      List.range' 3 (min ((limit + 1) / 2) ((Nat.sqrt limit - 1) / 2)) 2 := by
    apply takeWhile_range'_eq
    intro j _
    rw [decide_eq_true_eq]
    have hiff := Nat.le_sqrt (m := 3 + 2 * j) (n := limit)
    constructor
    · intro h
      have := hiff.mpr h
      omega
    · intro h
      apply hiff.mp
      omega
  have hmin : min ((limit + 1) / 2) ((Nat.sqrt limit - 1) / 2) = (Nat.sqrt limit - 1) / 2 := by
    have := Nat.sqrt_le_self limit
    omega
  rw [sieveTable, htw, hmin, sieve_foldl_eq limit _ hK, foldl_orIf_testBit]
  simp only [Nat.zero_testBit, Bool.false_eq_true, false_or]
  constructor
  · rintro ⟨p, hpmem, hpp, hpb⟩
    rw [List.mem_range'] at hpmem
    obtain ⟨j, hj, rfl⟩ := hpmem
    have h3 : 3 ≤ 3 + 2 * j := by omega
    have hodd : (3 + 2 * j) % 2 = 1 := by omega
    have hsq : (3 + 2 * j) * (3 + 2 * j) ≤ limit := hK j hj
    rw [stridePattern_testBit _ _ _ h3 hodd hsq] at hpb
    exact ⟨3 + 2 * j, hpp, hodd, hsq, hpb.1, hpb.2.1, hpb.2.2⟩
  · rintro ⟨p, hpp, hodd, hsq, hdvd, hple, hle⟩
    have h3 : 3 ≤ p := by
      have := hpp.two_le
      omega
    refine ⟨p, ?_, hpp, ?_⟩
    · rw [List.mem_range']
      refine ⟨(p - 3) / 2, ?_, by omega⟩
      have hps : p ≤ Nat.sqrt limit := Nat.le_sqrt.mpr hsq
      omega
    · rw [stridePattern_testBit _ _ _ h3 hodd hsq]
      exact ⟨hdvd, hple, hle⟩

/-! Kernel-evaluable twin: balanced or of the per-prime stride patterns. -/

def sievePrimes : List ℕ :=
  (List.range' 3 452 2).filter (fun p => (List.range' 3 15 2).all (fun d => p < d * d || p % d != 0))

theorem sievePrimes_mem (p : ℕ) :
    p ∈ sievePrimes ↔ 3 ≤ p ∧ p % 2 = 1 ∧ p ≤ 905 ∧ Nat.Prime p := by
  rw [sievePrimes, List.mem_filter, List.mem_range']
  constructor
  · rintro ⟨⟨j, hj, rfl⟩, hall⟩
    rw [List.all_eq_true] at hall
    refine ⟨by omega, by omega, by omega, ?_⟩
    set p := 3 + 2 * j with hp
    by_contra hnp
    have hp1 : p ≠ 1 := by omega
    have hp0 : 0 < p := by omega
    have hqp : p.minFac.Prime := Nat.minFac_prime hp1
    have hqdvd : p.minFac ∣ p := Nat.minFac_dvd p
    have hqsq : p.minFac * p.minFac ≤ p := by
      have := Nat.minFac_sq_le_self hp0 hnp
      simpa [pow_two] using this
    have hqodd : p.minFac % 2 = 1 := by
      rcases Nat.mod_two_eq_zero_or_one p.minFac with h | h
      · exfalso
        obtain ⟨c, hc⟩ := dvd_trans (Nat.dvd_of_mod_eq_zero h) hqdvd
        omega
      · exact h
    have hq3 : 3 ≤ p.minFac := by
      have := hqp.two_le
      omega
    have hqle : p.minFac ≤ 29 := by
      by_contra hgt
      push_neg at hgt
      have h31 : 31 ≤ p.minFac := by omega
      have : 31 * 31 ≤ p.minFac * p.minFac := Nat.mul_le_mul h31 h31
      omega
    have hmem : p.minFac ∈ List.range' 3 15 2 := by
      rw [List.mem_range']
      exact ⟨(p.minFac - 3) / 2, by omega, by omega⟩
    have := hall _ hmem
    rw [Bool.or_eq_true, decide_eq_true_eq, bne_iff_ne] at this
    rcases this with h | h
    · omega
    · exact h (Nat.mod_eq_zero_of_dvd hqdvd)
  · rintro ⟨h3, hodd, hle, hp⟩
    refine ⟨⟨(p - 3) / 2, by omega, by omega⟩, ?_⟩
    rw [List.all_eq_true]
    intro d hd
    rw [List.mem_range'] at hd
    obtain ⟨e, he, rfl⟩ := hd
    rw [Bool.or_eq_true, decide_eq_true_eq, bne_iff_ne]
    by_cases hdp : p < (3 + 2 * e) * (3 + 2 * e)
    · exact Or.inl hdp
    · right
      intro hmod
      have hdvd : (3 + 2 * e) ∣ p := Nat.dvd_of_mod_eq_zero hmod
      rcases hp.eq_one_or_self_of_dvd _ hdvd with h1 | hdp2
      · omega
      · rw [hdp2] at hdp
        push_neg at hdp
        have h3f : 3 * p ≤ p * p := Nat.mul_le_mul_right p h3
        omega

def orFnBin (g : ℕ → ℕ) : ℕ → ℕ → ℕ → ℕ
  | 0, i, cnt => if cnt = 0 then 0 else g i
  | fuel + 1, i, cnt =>
    if cnt = 0 then 0
    else if cnt = 1 then g i
    else orFnBin g fuel i (cnt / 2) ||| orFnBin g fuel (i + cnt / 2) (cnt - cnt / 2)

theorem orFnBin_testBit (g : ℕ → ℕ) :
    ∀ fuel i0 cnt b, cnt ≤ 2 ^ fuel →
      ((orFnBin g fuel i0 cnt).testBit b = true ↔
        ∃ j, i0 ≤ j ∧ j < i0 + cnt ∧ (g j).testBit b = true) := by
  intro fuel
  induction fuel with
  | zero =>
    intro i0 cnt b hcnt
    simp only [pow_zero] at hcnt
    interval_cases cnt
    · rw [orFnBin]
      simp
      omega
    · rw [orFnBin]
      simp only [if_neg (by omega : (1 : ℕ) ≠ 0)]
      constructor
      · intro h
        exact ⟨i0, le_refl _, by omega, h⟩
      · rintro ⟨j, hj1, hj2, hjb⟩
        have : j = i0 := by omega
        subst this
        exact hjb
  | succ fuel ih =>
    intro i0 cnt b hcnt
    rw [orFnBin]
    rcases Nat.eq_zero_or_pos cnt with rfl | hpos
    · simp
      omega
    rcases eq_or_ne cnt 1 with rfl | hone
    · rw [if_neg (by omega), if_pos rfl]
      constructor
      · intro h
        exact ⟨i0, le_refl _, by omega, h⟩
      · rintro ⟨j, hj1, hj2, hjb⟩
        have : j = i0 := by omega
        subst this
        exact hjb
    rw [if_neg (by omega), if_neg hone, Nat.testBit_or, Bool.or_eq_true,
      ih i0 (cnt / 2) b (by
        have h2 : 2 ^ (fuel + 1) = 2 ^ fuel * 2 := by rw [pow_succ]
        omega),
      ih (i0 + cnt / 2) (cnt - cnt / 2) b (by
        have h2 : 2 ^ (fuel + 1) = 2 ^ fuel * 2 := by rw [pow_succ]
        omega)]
    constructor
    · rintro (⟨j, hj1, hj2, hjb⟩ | ⟨j, hj1, hj2, hjb⟩)
      · exact ⟨j, hj1, by omega, hjb⟩
      · exact ⟨j, by omega, by omega, hjb⟩
    · rintro ⟨j, hj1, hj2, hjb⟩
      rcases Nat.lt_or_ge j (i0 + cnt / 2) with hj | hj
      · exact Or.inl ⟨j, hj1, hj, hjb⟩
      · exact Or.inr ⟨j, hj, by omega, hjb⟩

theorem orFnBin_lt (g : ℕ → ℕ) (B : ℕ) (hg : ∀ j, g j < 2 ^ B) :
    ∀ fuel i0 cnt, orFnBin g fuel i0 cnt < 2 ^ B := by
  intro fuel
  induction fuel with
  | zero =>
    intro i0 cnt
    rw [orFnBin]
    split
    · positivity
    · exact hg i0
  | succ fuel ih =>
    intro i0 cnt
    rw [orFnBin]
    split
    · positivity
    split
    · exact hg i0
    · exact Nat.or_lt_two_pow (ih _ _) (ih _ _)

def sieveT : ℕ := orFnBin (fun j => stridePattern 821641 (sievePrimes.getD j 0)) 9 0 452

theorem stridePattern_zero (limit : ℕ) : stridePattern limit 0 = 0 := by
  simp [stridePattern, geom]

theorem stridePattern_lt (limit p B : ℕ) (hp : 1 ≤ p) (hpl : p * p ≤ limit)
    (hB : limit / 2 + p ≤ B) : stridePattern limit p < 2 ^ B := by
  rw [stridePattern, Nat.shiftLeft_eq]
  have hg := geom_lt_two_pow p ((limit / 2 - p * p / 2) / p + 1) hp
  have hmd : (limit / 2 - p * p / 2) / p * p ≤ limit / 2 - p * p / 2 :=
    Nat.div_mul_le_self _ _
  have hcomm : p * ((limit / 2 - p * p / 2) / p) = (limit / 2 - p * p / 2) / p * p :=
    mul_comm _ _
  have hsle : p * p / 2 ≤ limit / 2 := Nat.div_le_div_right hpl
  have hdist : p * ((limit / 2 - p * p / 2) / p + 1) =
      p * ((limit / 2 - p * p / 2) / p) + p := by ring
  have hexp : p * ((limit / 2 - p * p / 2) / p + 1) + p * p / 2 ≤ B := by omega
  calc geom p ((limit / 2 - p * p / 2) / p + 1) * 2 ^ (p * p / 2)
      < 2 ^ (p * ((limit / 2 - p * p / 2) / p + 1)) * 2 ^ (p * p / 2) :=
        (Nat.mul_lt_mul_right (by positivity)).mpr hg
  _ = 2 ^ (p * ((limit / 2 - p * p / 2) / p + 1) + p * p / 2) := by rw [← pow_add]
  _ ≤ 2 ^ B := Nat.pow_le_pow_right (by norm_num) hexp

theorem sieveT_lt : sieveT < 2 ^ 524288 := by
  apply orFnBin_lt
  intro j
  rcases Nat.lt_or_ge j sievePrimes.length with hj | hj
  · have hmem : sievePrimes.getD j 0 ∈ sievePrimes := by
      rw [List.getD_eq_getElem _ _ hj]
      exact List.getElem_mem _
    obtain ⟨h3, hodd, hle, hp⟩ := (sievePrimes_mem _).mp hmem
    have hsq : sievePrimes.getD j 0 * sievePrimes.getD j 0 ≤ 821641 := by
      have := Nat.mul_le_mul hle hle
      omega
    exact stridePattern_lt 821641 _ 524288 (by omega) hsq (by omega)
  · rw [List.getD_eq_default _ _ hj, stridePattern_zero]
    positivity

theorem sieveT_bits (b : ℕ) : sieveT.testBit b = (sieveTable 821641).testBit b := by
  have h1 := orFnBin_testBit (fun j => stridePattern 821641 (sievePrimes.getD j 0)) 9 0 452 b
    (by norm_num)
  have h2 := sieveTable_testBit 821641 b
  rw [Bool.eq_iff_iff]
  rw [sieveT] at *
  rw [h1, h2]
  constructor
  · rintro ⟨j, _, hj452, hjb0⟩
    have hjb : (stridePattern 821641 (sievePrimes.getD j 0)).testBit b = true := hjb0
    rcases Nat.lt_or_ge j sievePrimes.length with hj | hj
    · have hmem : sievePrimes.getD j 0 ∈ sievePrimes := by
        rw [List.getD_eq_getElem _ _ hj]
        exact List.getElem_mem _
      obtain ⟨h3, hodd, hle, hp⟩ := (sievePrimes_mem _).mp hmem
      have hsq : sievePrimes.getD j 0 * sievePrimes.getD j 0 ≤ 821641 := by
        have := Nat.mul_le_mul hle hle
        omega
      rw [stridePattern_testBit _ _ _ h3 hodd hsq] at hjb
      exact ⟨sievePrimes.getD j 0, hp, hodd, hsq, hjb.1, hjb.2.1, hjb.2.2⟩
    · rw [List.getD_eq_default _ _ hj, stridePattern_zero] at hjb
      simp at hjb
  · rintro ⟨p, hp, hodd, hsq, hdvd, hple, hlim⟩
    have h3 : 3 ≤ p := by
      have := hp.two_le
      omega
    have hle905 : p ≤ 905 := by
      by_contra hgt
      push_neg at hgt
      have h907 : 907 ≤ p := by omega
      have := Nat.mul_le_mul h907 h907
      omega
    have hmem : p ∈ sievePrimes := (sievePrimes_mem p).mpr ⟨h3, hodd, hle905, hp⟩
    obtain ⟨j, hjlen, hjp⟩ := List.mem_iff_getElem.mp hmem
    have hlen : sievePrimes.length ≤ 452 := by
      have h1 := List.length_filter_le
        (fun p => (List.range' 3 15 2).all (fun d => p < d * d || p % d != 0))
        (List.range' 3 452 2)
      rw [List.length_range'] at h1
      exact h1
    refine ⟨j, by omega, by omega, ?_⟩
    show (stridePattern 821641 (sievePrimes.getD j 0)).testBit b = true
    rw [List.getD_eq_getElem _ _ hjlen, hjp, stridePattern_testBit _ _ _ h3 hodd hsq]
    exact ⟨hdvd, hple, hlim⟩

def sieveChecks : Bool := swarCount sieveT == 345285 && !sieveT.testBit 410820

set_option maxRecDepth 8000 in
theorem sieveChecks_eq : sieveChecks = true := by decide!

theorem sieveTable_count :
    (List.range 524288).countP (fun i => (sieveTable 821641).testBit i) = 345285 ∧
    (sieveTable 821641).testBit 410820 = false := by
  have h := sieveChecks_eq
  rw [sieveChecks, Bool.and_eq_true, beq_iff_eq, Bool.not_eq_true'] at h
  obtain ⟨h1, h2⟩ := h
  constructor
  · calc (List.range 524288).countP (fun i => (sieveTable 821641).testBit i)
        = (List.range 524288).countP (fun i => sieveT.testBit i) :=
          List.countP_congr (fun a _ => by rw [sieveT_bits a])
    _ = swarCount sieveT := (swar_spec _ sieveT_lt).symm
    _ = 345285 := h1
  · rw [← sieveT_bits 410820]
    exact h2

theorem sieve_unmarked_iff (limit i : ℕ) (h1 : 1 ≤ i) (h2 : 2 * i + 1 ≤ limit) :
    ((sieveTable limit).testBit i = false) ↔ Nat.Prime (2 * i + 1) := by
  have hchar := sieveTable_testBit limit i
  constructor
  · intro hf
    by_contra hnp
    have h1' : 2 * i + 1 ≠ 1 := by omega
    have h0 : 0 < 2 * i + 1 := by omega
    have hqp := Nat.minFac_prime h1'
    have hqdvd := Nat.minFac_dvd (2 * i + 1)
    have hqsq : (2 * i + 1).minFac * (2 * i + 1).minFac ≤ 2 * i + 1 := by
      have := Nat.minFac_sq_le_self h0 hnp
      simpa [pow_two] using this
    have hqodd : (2 * i + 1).minFac % 2 = 1 := by
      rcases Nat.mod_two_eq_zero_or_one (2 * i + 1).minFac with h | h
      · exfalso
        obtain ⟨c, hc⟩ := dvd_trans (Nat.dvd_of_mod_eq_zero h) hqdvd
        omega
      · exact h
    have hmarked : (sieveTable limit).testBit i = true :=
      hchar.mpr ⟨(2 * i + 1).minFac, hqp, hqodd, le_trans hqsq h2, hqdvd, hqsq, by omega⟩
    rw [hf] at hmarked
    exact absurd hmarked (by simp)
  · intro hp
    rcases Bool.eq_false_or_eq_true ((sieveTable limit).testBit i) with ht | hf
    · exfalso
      obtain ⟨p, hpp, _, _, hdvd, hple, _⟩ := hchar.mp ht
      rcases hp.eq_one_or_self_of_dvd p hdvd with hone | hself
      · have := hpp.two_le
        omega
      · rw [hself] at hple
        have h3 : 3 ≤ 2 * i + 1 := by omega
        have h3f : 3 * (2 * i + 1) ≤ (2 * i + 1) * (2 * i + 1) := Nat.mul_le_mul_right _ h3
        omega
    · exact hf

theorem sieve_bit_zero (limit : ℕ) : (sieveTable limit).testBit 0 = false := by
  rcases Bool.eq_false_or_eq_true ((sieveTable limit).testBit 0) with ht | hf
  · exfalso
    obtain ⟨p, hpp, _, _, _, hple, _⟩ := (sieveTable_testBit limit 0).mp ht
    have h2 := hpp.two_le
    have h4 : 4 ≤ p * p := Nat.mul_le_mul h2 h2
    omega
  · exact hf

theorem generatePrimeTable_eq_filter (limit : ℕ) :
    GeneratePrimeTable limit = (List.range (limit + 1)).filter (fun n => decide (Nat.Prime n)) := by
  by_cases hlim : limit < 2
  · rw [GeneratePrimeTable, if_pos hlim]
    symm
    rw [List.filter_eq_nil_iff]
    intro a ha
    rw [List.mem_range] at ha
    simp only [decide_eq_true_eq]
    have : a = 0 ∨ a = 1 := by omega
    rcases this with rfl | rfl
    · exact Nat.not_prime_zero
    · exact Nat.not_prime_one
  · push_neg at hlim
    rw [GeneratePrimeTable, if_neg (by omega)]
    have hsortR : ((List.range (limit + 1)).filter (fun n => decide (Nat.Prime n))).Sorted (· < ·) :=
      List.Pairwise.sublist (List.filter_sublist _) (List.sorted_lt_range _)
    have hsortMap : (((List.range' 1 ((limit - 1) / 2)).filter
        (fun i => !(sieveTable limit).testBit i)).map (fun i => 2 * i + 1)).Pairwise (· < ·) := by
      rw [List.pairwise_map]
      apply List.Pairwise.imp ?_
        (List.Pairwise.sublist (List.filter_sublist _) (List.pairwise_lt_range' 1 ((limit - 1) / 2)))
      intro a b hab
      omega
    have hsortL : (2 :: ((List.range' 1 ((limit - 1) / 2)).filter
        (fun i => !(sieveTable limit).testBit i)).map (fun i => 2 * i + 1)).Sorted (· < ·) := by
      rw [List.sorted_cons]
      constructor
      · intro b hb
        rw [List.mem_map] at hb
        obtain ⟨j, hj, rfl⟩ := hb
        obtain ⟨hjr, _⟩ := List.mem_filter.mp hj
        rw [List.mem_range'] at hjr
        obtain ⟨e, he, hje⟩ := hjr
        omega
      · exact hsortMap
    apply List.eq_of_perm_of_sorted ?_ hsortL hsortR
    apply (List.perm_ext_iff_of_nodup hsortL.nodup hsortR.nodup).mpr
    intro a
    simp only [List.mem_cons, List.mem_map, List.mem_filter, List.mem_range', List.mem_range,
      Bool.not_eq_true', decide_eq_true_eq]
    constructor
    · rintro (rfl | ⟨j, ⟨⟨e, he, hje⟩, hjb⟩, rfl⟩)
      · exact ⟨by omega, Nat.prime_two⟩
      · have h1j : 1 ≤ j := by omega
        have h2j : 2 * j + 1 ≤ limit := by omega
        have hprime := (sieve_unmarked_iff limit j h1j h2j).mp hjb
        exact ⟨by omega, hprime⟩
    · rintro ⟨haR, hap⟩
      by_cases h2 : a = 2
      · exact Or.inl h2
      · right
        have hodd : a % 2 = 1 := by
          rcases hap.eq_two_or_odd with he | ho
          · exact absurd he h2
          · exact ho
        have h3 : 3 ≤ a := by
          have := hap.two_le
          omega
        have hbit : (sieveTable limit).testBit (a / 2) = false := by
          apply (sieve_unmarked_iff limit (a / 2) (by omega) (by omega)).mpr
          have heq : 2 * (a / 2) + 1 = a := by omega
          rw [heq]
          exact hap
        exact ⟨a / 2, ⟨⟨a / 2 - 1, by omega, by omega⟩, hbit⟩, by omega⟩

theorem filter_range_getD :
    ∀ m i, i < ((List.range m).filter (fun n => decide (Nat.Prime n))).length →
      ((List.range m).filter (fun n => decide (Nat.Prime n))).getD i 0 = Nat.nth Nat.Prime i := by
  intro m
  induction m with
  | zero =>
    intro i hi
    simp at hi
  | succ m ih =>
    intro i hi
    rw [List.range_succ, List.filter_append] at hi ⊢
    by_cases hip : i < ((List.range m).filter (fun n => decide (Nat.Prime n))).length
    · rw [List.getD_append _ _ _ _ hip]
      exact ih i hip
    · push_neg at hip
      by_cases hpm : Nat.Prime m
      · have hfm : (List.filter (fun n => decide (Nat.Prime n)) [m]) = [m] := by
          simp [hpm]
        rw [hfm] at hi ⊢
        rw [List.length_append, List.length_singleton] at hi
        have hieq : i = ((List.range m).filter (fun n => decide (Nat.Prime n))).length := by
          omega
        subst hieq
        rw [List.getD_append_right _ _ _ _ (le_refl _), Nat.sub_self]
        have hcount : ((List.range m).filter (fun n => decide (Nat.Prime n))).length =
            Nat.count Nat.Prime m := by
          rw [← List.countP_eq_length_filter]
          rfl
        rw [hcount]
        simp only [List.getD_cons_zero]
        exact (Nat.nth_count hpm).symm
      · have hfm : (List.filter (fun n => decide (Nat.Prime n)) [m]) = [] := by
          simp [hpm]
        rw [hfm] at hi
        rw [List.length_append, List.length_nil] at hi
        omega

theorem primeTable_eq :
    primeTable = (List.range 821642).filter (fun n => decide (Nat.Prime n)) :=
  generatePrimeTable_eq_filter 821641

theorem count_split_524288 (pred : ℕ → Bool) (h : (List.range 524288).countP pred = 345285)
    (h0 : pred 0 = false)
    (hhigh : (List.range' 410821 113467).countP pred = 0) :
    (List.range' 1 410820).countP pred = 345285 := by
  have hsplit : List.range 524288 = 0 :: (List.range' 1 410820 ++ List.range' 410821 113467) := by
    rw [List.range_eq_range']
    have h1 : List.range' 0 524288 = 0 :: List.range' 1 524287 := by rw [List.range'_succ]
    have h2 : List.range' 1 410820 ++ List.range' 410821 113467 = List.range' 1 524287 := by
      have := List.range'_append 1 410820 113467 1
      simpa using this
    rw [h1, h2]
  rw [hsplit, List.countP_cons, List.countP_append, hhigh, h0] at h
  simpa using h

theorem sieve_count_mid :
    (List.range' 1 410820).countP (fun i => (sieveTable 821641).testBit i) = 345285 := by
  apply count_split_524288 _ sieveTable_count.1 (sieve_bit_zero 821641)
  rw [List.countP_eq_zero]
  intro a ha
  rw [List.mem_range'] at ha
  obtain ⟨e, he, rfl⟩ := ha
  simp only [Bool.not_eq_true]
  rcases Bool.eq_false_or_eq_true ((sieveTable 821641).testBit (410821 + 1 * e)) with ht | hf
  · exfalso
    obtain ⟨p, _, _, _, _, _, hle⟩ := (sieveTable_testBit 821641 _).mp ht
    omega
  · exact hf

theorem count_to_length (pred npred : ℕ → Bool) (hn : ∀ a, npred a = !pred a)
    (hmid : (List.range' 1 410820).countP pred = 345285) :
    (List.range' 1 410820).countP npred + 1 = 65536 := by
  have hsplit := List.length_eq_countP_add_countP (p := pred) (l := List.range' 1 410820)
  rw [List.length_range'] at hsplit
  have hc : (List.range' 1 410820).countP (fun a => ¬pred a) =
      (List.range' 1 410820).countP npred := by
    apply List.countP_congr
    intro a _
    rw [hn a]
    simp
  omega

theorem primeTable_length : primeTable.length = 65536 := by
  rw [primeTable, GeneratePrimeTable, if_neg (by norm_num)]
  rw [List.length_cons, List.length_map, ← List.countP_eq_length_filter]
  have h420 : ((821641 : ℕ) - 1) / 2 = 410820 := by norm_num
  rw [h420]
  exact count_to_length (fun i => (sieveTable 821641).testBit i)
    (fun i => !(sieveTable 821641).testBit i) (fun a => rfl) sieve_count_mid

theorem prime_821641 : Nat.Prime 821641 := by
  have h := (sieve_unmarked_iff 821641 410820 (by norm_num) (by norm_num)).mp
    sieveTable_count.2
  have heq : (2 * 410820 + 1 : ℕ) = 821641 := by norm_num
  rwa [heq] at h

theorem primeTable_getD_nth : ∀ i, i < 65536 → primeTable.getD i 0 = Nat.nth Nat.Prime i := by
  intro i hi
  have hlen : ((List.range 821642).filter (fun n => decide (Nat.Prime n))).length = 65536 := by
    rw [← primeTable_eq]
    exact primeTable_length
  rw [primeTable_eq]
  apply filter_range_getD 821642 i
  rw [hlen]
  exact hi

theorem count_prime_821641 : Nat.count Nat.Prime 821641 = 65535 := by
  have hlen : ((List.range 821642).filter (fun n => decide (Nat.Prime n))).length = 65536 := by
    rw [← primeTable_eq]
    exact primeTable_length
  rw [← List.countP_eq_length_filter] at hlen
  rw [show (821642 : ℕ) = 821641 + 1 from rfl, List.range_succ, List.countP_append] at hlen
  have h1 : List.countP (fun n => decide (Nat.Prime n)) [821641] = 1 := by
    rw [List.countP_singleton, if_pos (by exact decide_eq_true prime_821641)]
  rw [h1] at hlen
  have hcount : Nat.count Nat.Prime 821641 =
      (List.range 821641).countP (fun n => decide (Nat.Prime n)) := rfl
  rw [hcount]
  exact Nat.add_right_cancel (hlen.trans (by norm_num : (65536 : ℕ) = 65535 + 1))

theorem primeTable_last : primeTable.getD 65535 0 = 821641 := by
  rw [primeTable_getD_nth 65535 (by norm_num), ← count_prime_821641]
  exact Nat.nth_count prime_821641

theorem primeTable_sorted : List.Sorted (· < ·) primeTable := by
  rw [primeTable_eq]
  exact List.Pairwise.sublist (List.filter_sublist _) (List.sorted_lt_range _)

theorem primeTable_head : primeTable.getD 0 0 = 2 := by
  rw [primeTable, GeneratePrimeTable, if_neg (by norm_num)]
  rfl

/-- C9: GeneratePrimeTable returns exactly the primes not exceeding the limit in
strictly increasing order; in particular the global prime table built with limit
821641 has 65536 entries, starts with 2, ends with 821641, and its i-th entry is
the (i+1)-th prime. -/
theorem generatePrimeTable_correct :
    (∀ limit, GeneratePrimeTable limit =
      (List.range (limit + 1)).filter (fun n => decide (Nat.Prime n))) ∧
    List.Sorted (· < ·) primeTable ∧
    primeTable.length = 65536 ∧
    primeTable.getD 0 0 = 2 ∧
    primeTable.getD 65535 0 = 821641 ∧
    ∀ i, i < 65536 → primeTable.getD i 0 = Nat.nth Nat.Prime i :=
  ⟨generatePrimeTable_eq_filter, primeTable_sorted, primeTable_length,
    primeTable_head, primeTable_last, primeTable_getD_nth⟩
